import Mathlib

/-! glue: Lua table / Go value mapper

A shallow embedding of `mapper.go` (package `glue`): the value translator
`AsGoValue` / `FromGoValue` and the facade `Decode` / `Encode`, together with
the part of the gopher-lua table API (`MaxN`, `ForEach`, `RawGetInt`, `RawSet`,
`Append`) and of the mapstructure decoder that the mapper calls.

Conventions of the embedding

* A Go function returning `(value, error)` returns an `Outcome`: either
  `Outcome.ret value err` (with `err = none` for a nil error) or
  `Outcome.panic` for a run-time panic.
* Lua tables are finite trees: a table value contains its array part and its
  two hash parts. Every occurrence of a table stands for a heap object of its
  own, so cyclic or shared tables are outside the model.
* Go maps are association lists; the order of a list stands for one possible
  iteration order, and every statement below is made for all lists.
* `float64` values are the rationals they denote; NaN and the infinities are
  outside the model.
-/

namespace Glue

/-! ## Errors and outcomes -/

/-- The Go `error` values that can leave the mapper: the two package-level
sentinels of `mapper.go` and the errors of the external decoder (identified by
a code). -/
inductive GoError where
  | ErrTableExpected
  | ErrCannotConvert
  | decoder (code : Nat)
  deriving DecidableEq, Repr

/-- Result of a Go call returning `(α, error)`: normal return with the value
and the (possibly nil) error, or a run-time panic. -/
inductive Outcome (α : Type) where
  | ret (val : α) (err : Option GoError)
  | panic
  deriving DecidableEq, Repr

/-! ## Lua values (gopher-lua) -/

/-- The `float64` carrier: `lua.LNumber` and Go `float64`. -/
abbrev Float64 := Rat

mutual
/-- A `lua.LValue`: the five kinds the mapper translates and the four it does
not (function, userdata, thread, channel; each identified by a number that
stands for its identity). `nilInterface` is the nil interface value, which is
what `return nil, err` returns in `FromGoValue`; it is not `lua.LNil`. -/
inductive LValue where
  | nilInterface
  | LNil
  | LBool (b : Bool)
  | LString (s : String)
  | LNumber (n : Float64)
  | LTable (t : LTable)
  | LFunction (id : Nat)
  | LUserData (id : Nat)
  | LState (id : Nat)
  | LChannel (id : Nat)
/-- A `lua.LTable`: the array part (`array`, index `i` holds key `i+1`), the
string-keyed hash part (`strdict`) and the hash part for all other keys
(`dict`). The fields `keys`, `k2i` and `Metatable` of the library are only used
by `Next` and by metamethods, which the mapper never calls. -/
inductive LTable where
  | mk (array : List LValue) (strdict : List (String × LValue))
      (dict : List (LValue × LValue))
end

/-- The array part of a table. -/
def LTable.array : LTable → List LValue
  | .mk a _ _ => a

/-- The string-keyed hash part of a table. -/
def LTable.strdict : LTable → List (String × LValue)
  | .mk _ s _ => s

/-- The hash part of a table for keys that are neither array indices nor
strings. -/
def LTable.dict : LTable → List (LValue × LValue)
  | .mk _ _ d => d

/-- The zero value `lua.LTable{}`. -/
def LTable.empty : LTable := .mk [] [] []

/-- Go `v == lua.LNil`. -/
def LValue.isNil : LValue → Bool
  | .LNil => true
  | _ => false

/-- Go `==` on two `lua.LValue` interface values, as the hash part `dict` uses
it for its keys. Scalars compare by value, functions, userdata, threads and
channels by identity; two table occurrences are two heap objects and never the
same key. -/
def LValue.keyEq : LValue → LValue → Bool
  | .nilInterface, .nilInterface => true
  | .LNil, .LNil => true
  | .LBool a, .LBool b => a == b
  | .LString a, .LString b => a == b
  | .LNumber a, .LNumber b => a == b
  | .LFunction a, .LFunction b => a == b
  | .LUserData a, .LUserData b => a == b
  | .LState a, .LState b => a == b
  | .LChannel a, .LChannel b => a == b
  | _, _ => false

/-- The library constant `MaxArrayIndex`. -/
def MaxArrayIndex : Nat := 67108864

/-- The library predicate `isArrayKey`: the number is an integer with
`0 < v < MaxArrayIndex`. -/
def isArrayKey (v : Float64) : Bool :=
  v.den == 1 && decide (0 < v) && decide (v < (MaxArrayIndex : Rat))

/-- The loop of `MaxN`: `for i := n-1; i >= 0; i--` returning `i+1` at the
first (from the end) cell that is not `LNil`, and `0` when there is none. -/
def maxNLoop (array : List LValue) : Nat → Nat
  | 0 => 0
  | i + 1 => if (array.getD i .LNil).isNil then maxNLoop array i else i + 1

/-- `LTable.MaxN`: the largest array index holding a value that is not nil,
`0` when the array part holds none. -/
def LTable.MaxN (tb : LTable) : Nat :=
  maxNLoop tb.array tb.array.length

/-- `LTable.RawGetInt`: the array cell of a key, `LNil` outside the array
part. -/
def LTable.RawGetInt (tb : LTable) (key : Nat) : LValue :=
  if key = 0 then .LNil else tb.array.getD (key - 1) .LNil

/-- The array-part pass of `ForEach`: every cell that is not nil, under the
key `LNumber (i+1)`; the first cell of the list has index `i`. -/
def arrayEntries : List LValue → Nat → List (LValue × LValue)
  | [], _ => []
  | v :: rest, i =>
    if v.isNil then arrayEntries rest (i + 1)
    else (.LNumber ((i + 1 : Nat) : Rat), v) :: arrayEntries rest (i + 1)

/-- `LTable.ForEach`, as the list of the `(key, value)` pairs the callback is
called with, in call order: the array part, then `strdict`, then `dict`, each
without the pairs whose value is nil. -/
def LTable.ForEach (tb : LTable) : List (LValue × LValue) :=
  arrayEntries tb.array 0
    ++ (tb.strdict.filter (fun kv => !kv.2.isNil)).map (fun kv => (.LString kv.1, kv.2))
    ++ tb.dict.filter (fun kv => !kv.2.isNil)

/-- Go `m[key] = value` on an association list: the first pair whose key
satisfies `eq key` gets the new value, otherwise the pair is added. -/
def assocSet {κ ν : Type} (eq : κ → κ → Bool) : List (κ × ν) → κ → ν → List (κ × ν)
  | [], k, v => [(k, v)]
  | (k', v') :: rest, k, v =>
    if eq k' k then (k', v) :: rest else (k', v') :: assocSet eq rest k v

/-- Go `delete(m, key)` on an association list. -/
def assocDelete {κ ν : Type} (eq : κ → κ → Bool) (m : List (κ × ν)) (k : κ) : List (κ × ν) :=
  m.filter (fun kv => !eq kv.1 k)

/-- Go `m[key]` on an association list. -/
def assocGet {κ ν : Type} (eq : κ → κ → Bool) : List (κ × ν) → κ → Option ν
  | [], _ => none
  | (k', v') :: rest, k => if eq k' k then some v' else assocGet eq rest k

/-- `LTable.RawSetString`. -/
def LTable.RawSetString (tb : LTable) (key : String) (value : LValue) : LTable :=
  if value.isNil then .mk tb.array (assocDelete (· == ·) tb.strdict key) tb.dict
  else .mk tb.array (assocSet (· == ·) tb.strdict key value) tb.dict

/-- `LTable.RawSetH`. -/
def LTable.RawSetH (tb : LTable) (key : LValue) (value : LValue) : LTable :=
  match key with
  | .LString s => tb.RawSetString s value
  | _ =>
    if value.isNil then .mk tb.array tb.strdict (assocDelete LValue.keyEq tb.dict key)
    else .mk tb.array tb.strdict (assocSet LValue.keyEq tb.dict key value)

/-- The array branch of `RawSet` / `RawSetInt` for the zero-based `index`:
append at the end, pad with `LNil` up to the index, or overwrite. -/
def arraySet (array : List LValue) (index : Nat) (value : LValue) : List LValue :=
  if index = array.length then array ++ [value]
  else if array.length < index then
    array ++ List.replicate (index - array.length) .LNil ++ [value]
  else array.set index value

/-- `LTable.RawSet`. -/
def LTable.RawSet (tb : LTable) (key : LValue) (value : LValue) : LTable :=
  match key with
  | .LNumber v =>
    if isArrayKey v then .mk (arraySet tb.array (v.num.toNat - 1) value) tb.strdict tb.dict
    else tb.RawSetH key value
  | .LString s => tb.RawSetString s value
  | _ => tb.RawSetH key value

/-- `LTable.Append`: nil is not appended; the value goes after the last cell,
or, when the array part ends in nil cells, into the cell after the last one
that is not nil. -/
def LTable.Append (tb : LTable) (value : LValue) : LTable :=
  if value.isNil then tb
  else if tb.array.length = 0 || !(tb.array.getD (tb.array.length - 1) .LNil).isNil then
    .mk (tb.array ++ [value]) tb.strdict tb.dict
  else
    .mk (tb.array.set (maxNLoop tb.array (tb.array.length - 1)) value) tb.strdict tb.dict

/-! ## Go values (`interface{}`) -/

/-- The `reflect.Kind` of a host value. -/
inductive Kind where
  | Invalid | Bool | Int | Int8 | Int16 | Int32 | Int64
  | Uint | Uint8 | Uint16 | Uint32 | Uint64 | Uintptr
  | Float32 | Float64 | Complex64 | Complex128
  | Array | Chan | Func | Interface | Map | Pointer | Slice | String | Struct
  | UnsafePointer
  deriving DecidableEq, Repr

/-- The fixed-width numeric types that the type switch of `FromGoValue` does
not name. -/
inductive NumKind where
  | Int8 | Int16 | Int32 | Int64
  | Uint | Uint8 | Uint16 | Uint32 | Uint64 | Uintptr
  | Float32
  deriving DecidableEq, Repr

/-- The remaining kinds of host values: complex numbers, channels, functions,
unsafe pointers, maps of another type than `map[interface{}]interface{}`, and
defined types whose underlying type is bool, int, float64 or string. -/
inductive OtherKind where
  | Complex64 | Complex128 | Chan | Func | UnsafePointer | Map
  | Bool | Int | Float64 | String
  deriving DecidableEq, Repr

/-- A Go value held in an `interface{}`.

* `nil`, `bool`, `string`, `int`, `float64`, `map` are the six cases of the type
  switch of `FromGoValue` (`map` is exactly `map[interface{}]interface{}`); they
  are also, without `int`, what `AsGoValue` returns, together with `slice`
  (a `[]interface{}`).
* `struct` is a value of kind `Struct`, given by what the external decoder
  makes of it: the error or the map it decodes to, once under `ErrorUnused`
  (strict) and once without (lenient).
* `pointer` / `nilPointer`, `slice`, `array` are the kinds `Pointer`, `Slice`,
  `Array`.
* `number` and `other` are the values of every other type. -/
inductive GoValue where
  | nil
  | bool (b : Bool)
  | string (s : String)
  | int (n : Int)
  | float64 (x : Float64)
  | map (entries : List (GoValue × GoValue))
  | struct (strictErr : Option GoError) (strictMap : List (GoValue × GoValue))
      (lenientErr : Option GoError) (lenientMap : List (GoValue × GoValue))
  | pointer (elem : GoValue)
  | nilPointer
  | slice (elems : List GoValue)
  | array (elems : List GoValue)
  | number (k : NumKind) (val : Rat)
  | other (k : OtherKind) (id : Nat)

/-- The `reflect.Kind` of a fixed-width numeric type. -/
def NumKind.kind : NumKind → Kind
  | .Int8 => .Int8 | .Int16 => .Int16 | .Int32 => .Int32 | .Int64 => .Int64
  | .Uint => .Uint | .Uint8 => .Uint8 | .Uint16 => .Uint16 | .Uint32 => .Uint32
  | .Uint64 => .Uint64 | .Uintptr => .Uintptr | .Float32 => .Float32

/-- The `reflect.Kind` of the remaining types. -/
def OtherKind.kind : OtherKind → Kind
  | .Complex64 => .Complex64 | .Complex128 => .Complex128 | .Chan => .Chan
  | .Func => .Func | .UnsafePointer => .UnsafePointer | .Map => .Map
  | .Bool => .Bool | .Int => .Int | .Float64 => .Float64 | .String => .String

/-- Go `reflect.TypeOf(v).Kind()`; `Invalid` stands for the nil interface, on
which `reflect.TypeOf` returns nil. -/
def GoValue.kind : GoValue → Kind
  | .nil => .Invalid
  | .bool _ => .Bool
  | .string _ => .String
  | .int _ => .Int
  | .float64 _ => .Float64
  | .map _ => .Map
  | .struct _ _ _ _ => .Struct
  | .pointer _ => .Pointer
  | .nilPointer => .Pointer
  | .slice _ => .Slice
  | .array _ => .Array
  | .number k _ => k.kind
  | .other k _ => k.kind

/-- Go `==` on two interface values used as keys of a
`map[interface{}]interface{}`, for the key types `AsGoValue` produces. -/
def GoValue.keyEq : GoValue → GoValue → Bool
  | .nil, .nil => true
  | .bool a, .bool b => a == b
  | .string a, .string b => a == b
  | .int a, .int b => a == b
  | .float64 a, .float64 b => a == b
  | _, _ => false

/-- Whether a Go value can be hashed as a map key: maps and slices cannot, and
using one as a key panics. -/
def GoValue.hashable : GoValue → Bool
  | .map _ => false
  | .slice _ => false
  | _ => true

/-- Go `ret[lKey] = lValue` on a `map[interface{}]interface{}`: `none` is the
panic "hash of unhashable type". -/
def mapassign (ret : List (GoValue × GoValue)) (lKey lValue : GoValue) :
    Option (List (GoValue × GoValue)) :=
  if lKey.hashable then some (assocSet GoValue.keyEq ret lKey lValue) else none

/-! ## AsGoValue -/

/-- The variables captured by the closure that `AsGoValue` passes to
`ForEach`: the map `ret` and the error variable `err` declared by
`var err error` in front of the call. -/
structure MapState where
  ret : List (GoValue × GoValue)
  err : Option GoError

/-- The body of the closure, given the outcomes of `m.AsGoValue(key)` and
`m.AsGoValue(value)`; `none` is a panic.

`lKey, err := m.AsGoValue(key)` is a short variable declaration in the scope
of the closure body: it declares a new `err` there, and
`lValue, err := m.AsGoValue(value)` assigns to that one. The captured `err` is
read by the first `if` and assigned nowhere. The second call is only evaluated
when the first returned a nil error. -/
def asGoCallback (st : MapState) (keyOut valueOut : Outcome GoValue) : Option MapState :=
  if st.err.isSome then some st
  else
    match keyOut with
    | .panic => none
    | .ret _ (some _) => some st
    | .ret lKey none =>
      match valueOut with
      | .panic => none
      | .ret _ (some _) => some st
      | .ret lValue none =>
        match mapassign st.ret lKey lValue with
        | none => none
        | some ret => some { ret := ret, err := st.err }

mutual
/-- `Mapper.AsGoValue`. The receiver is not used by the function and is left
out. -/
def AsGoValue : LValue → Outcome GoValue
  | .nilInterface => .ret .nil (some .ErrCannotConvert)
  | .LNil => .ret .nil none
  | .LBool v => .ret (.bool v) none
  | .LString v => .ret (.string v) none
  | .LNumber v => .ret (.float64 v) none
  | .LTable v => asGoTable v
  | .LFunction _ => .ret .nil (some .ErrCannotConvert)
  | .LUserData _ => .ret .nil (some .ErrCannotConvert)
  | .LState _ => .ret .nil (some .ErrCannotConvert)
  | .LChannel _ => .ret .nil (some .ErrCannotConvert)
/-- The `case *lua.LTable` of `AsGoValue`: with `maxN == 0` the `ForEach` over
the three parts of the table, starting from the empty map and the nil `err`,
and `return ret, err`; otherwise the loop over the indices `1..maxN`. -/
def asGoTable : LTable → Outcome GoValue
  | .mk array strdict dict =>
    if maxNLoop array array.length = 0 then
      match asGoArrayPart array 0 { ret := [], err := none } with
      | none => .panic
      | some st1 =>
        match asGoStrdict strdict st1 with
        | none => .panic
        | some st2 =>
          match asGoDict dict st2 with
          | none => .panic
          | some st3 => .ret (.map st3.ret) st3.err
    else asGoItems array (maxNLoop array array.length) []
/-- The closure called along the array pass of `ForEach`, from index `i` on:
for a cell that is not nil the key is `LNumber(i+1)`, on which `AsGoValue`
returns `float64(i+1)` and a nil error. -/
def asGoArrayPart : List LValue → Nat → MapState → Option MapState
  | [], _, st => some st
  | v :: rest, i, st =>
    if v.isNil then asGoArrayPart rest (i + 1) st
    else
      match asGoCallback st (.ret (.float64 ((i + 1 : Nat) : Rat)) none) (AsGoValue v) with
      | none => none
      | some st1 => asGoArrayPart rest (i + 1) st1
/-- The closure called along the `strdict` pass of `ForEach`: the key is
`LString(k)`, on which `AsGoValue` returns the string and a nil error. -/
def asGoStrdict : List (String × LValue) → MapState → Option MapState
  | [], st => some st
  | (k, v) :: rest, st =>
    if v.isNil then asGoStrdict rest st
    else
      match asGoCallback st (.ret (.string k) none) (AsGoValue v) with
      | none => none
      | some st1 => asGoStrdict rest st1
/-- The closure called along the `dict` pass of `ForEach`. -/
def asGoDict : List (LValue × LValue) → MapState → Option MapState
  | [], st => some st
  | (k, v) :: rest, st =>
    if v.isNil then asGoDict rest st
    else
      match asGoCallback st (AsGoValue k) (AsGoValue v) with
      | none => none
      | some st1 => asGoDict rest st1
/-- The loop `for i := 1; i <= maxN; i++` of the array branch, with `n`
iterations left, the cells `RawGetInt(i), RawGetInt(i+1), ...` of the array
part still ahead, and the slice `ret` built so far. Past the end of the array
part `RawGetInt` returns `LNil`, which converts to nil. -/
def asGoItems : List LValue → Nat → List GoValue → Outcome GoValue
  | _, 0, ret => .ret (.slice ret) none
  | [], n + 1, ret => .ret (.slice (ret ++ List.replicate (n + 1) .nil)) none
  | x :: rest, n + 1, ret =>
    match AsGoValue x with
    | .panic => .panic
    | .ret _ (some err) => .ret .nil (some err)
    | .ret lItem none => asGoItems rest n (ret ++ [lItem])
end

/-- One call of the closure of `AsGoValue` on a pair delivered by `ForEach`;
a panic of an earlier call stays. -/
def asGoStep (st : Option MapState) (kv : LValue × LValue) : Option MapState :=
  match st with
  | none => none
  | some s => asGoCallback s (AsGoValue kv.1) (AsGoValue kv.2)

/-! ## FromGoValue -/

/-- The type `Options` (a Go `int`). -/
abbrev Options := Int

/-- The constant `OptionsLenient Options = 1 << iota`, the first constant of
its block. -/
def OptionsLenient : Options := 1

/-- The type `Mapper`. -/
structure Mapper where
  Options : Options

/-- `NewMapper`. -/
def NewMapper (options : Options) : Mapper := { Options := options }

/-- The bit pattern of a Go `int` (64 bits, two's complement). -/
def intBits (x : Int) : Nat := (x % 2 ^ 64).toNat

/-- The expression `m.Options&OptionsLenient == 0`. -/
def Mapper.errorUnused (m : Mapper) : Bool :=
  Nat.land (intBits m.Options) (intBits OptionsLenient) == 0

/-- The number of low bits that do not fit into a 53-bit significand: how
often `a` is halved until it is below `2^53` (the second argument bounds the
number of steps). -/
def excessBits (a : Nat) : Nat → Nat
  | 0 => 0
  | fuel + 1 => if a < 2 ^ 53 then 0 else excessBits (a / 2) fuel + 1

/-- The Go conversion `float64(t)` of an `int`: exact below `2^53` in absolute
value, beyond that rounded to 53 significant bits, ties to even. -/
def float64OfInt (t : Int) : Float64 :=
  let a := t.natAbs
  if a < 2 ^ 53 then (t : Rat)
  else
    let e := excessBits a a
    let q := a / 2 ^ e
    let r := a % 2 ^ e
    let half := 2 ^ (e - 1)
    let q1 := if half < r ∨ (r = half ∧ q % 2 = 1) then q + 1 else q
    if t < 0 then -((q1 * 2 ^ e : Nat) : Rat) else ((q1 * 2 ^ e : Nat) : Rat)

mutual
/-- `Mapper.FromGoValue`. The first six cases are the cases of the type
switch; the others are its `default` case, by `reflect.TypeOf(v).Kind()`.
`reflect.ValueOf(v).Elem().Interface()` panics on a nil pointer. In the
`Struct` case the decoder is built with `ErrorUnused` set to
`m.Options&OptionsLenient == 0` and its result `mp` goes through the `map`
case. -/
def FromGoValue (m : Mapper) : GoValue → Outcome LValue
  | .nil => .ret .LNil none
  | .bool t => .ret (.LBool t) none
  | .string t => .ret (.LString t) none
  | .int t => .ret (.LNumber (float64OfInt t)) none
  | .float64 t => .ret (.LNumber t) none
  | .map t => fromGoMap m t .empty
  | .struct strictErr strictMap lenientErr lenientMap =>
    if m.errorUnused then
      match strictErr with
      | some err => .ret .nilInterface (some err)
      | none => fromGoMap m strictMap .empty
    else
      match lenientErr with
      | some err => .ret .nilInterface (some err)
      | none => fromGoMap m lenientMap .empty
  | .pointer elem => FromGoValue m elem
  | .nilPointer => .panic
  | .slice elems => fromGoElems m elems .empty
  | .array elems => fromGoElems m elems .empty
  | .number _ _ => .ret .nilInterface (some .ErrCannotConvert)
  | .other _ _ => .ret .nilInterface (some .ErrCannotConvert)
/-- The loop `for key, value := range t` of the `map` case, over the pairs
still to come, with the table built so far. -/
def fromGoMap (m : Mapper) : List (GoValue × GoValue) → LTable → Outcome LValue
  | [], table => .ret (.LTable table) none
  | (key, value) :: rest, table =>
    match FromGoValue m key with
    | .panic => .panic
    | .ret _ (some err) => .ret .nilInterface (some err)
    | .ret lKey none =>
      match FromGoValue m value with
      | .panic => .panic
      | .ret _ (some err) => .ret .nilInterface (some err)
      | .ret lValue none => fromGoMap m rest (table.RawSet lKey lValue)
/-- The loop `for i := 0; i < value.Len(); i++` of the `Slice, Array` case,
over the elements still to come, with the table built so far. -/
def fromGoElems (m : Mapper) : List GoValue → LTable → Outcome LValue
  | [], table => .ret (.LTable table) none
  | item :: rest, table =>
    match FromGoValue m item with
    | .panic => .panic
    | .ret _ (some err) => .ret .nilInterface (some err)
    | .ret lItem none => fromGoElems m rest (table.Append lItem)
end

/-! ## Decode and Encode -/

/-- The fields of `mapstructure.DecoderConfig` that `Decode` sets, without
`Result`, which is the destination `st`. -/
structure DecoderConfig where
  WeaklyTypedInput : Bool
  TagName : String
  ErrorUnused : Bool
  deriving DecidableEq, Repr

/-- The external decoder (package mapstructure), over destinations of type
`σ`: `NewDecoder` gives the error of `mapstructure.NewDecoder` for a
configuration and a destination, `Decode` what `decoder.Decode(mp)` does: the
destination afterwards and the error, or a panic. -/
structure Mapstructure (σ : Type) where
  NewDecoder : DecoderConfig → σ → Option GoError
  Decode : DecoderConfig → σ → List (GoValue × GoValue) → Outcome σ

/-- `Mapper.Decode` on a table that is not nil: the destination afterwards and
the returned error. -/
def Decode {σ : Type} (ms : Mapstructure σ) (m : Mapper) (tbl : LTable) (st : σ) : Outcome σ :=
  match AsGoValue (.LTable tbl) with
  | .panic => .panic
  | .ret _ (some err) => .ret st (some err)
  | .ret lValue none =>
    match lValue with
    | .map mp =>
      let config : DecoderConfig :=
        { WeaklyTypedInput := true, TagName := "glue", ErrorUnused := m.errorUnused }
      match ms.NewDecoder config st with
      | some err => .ret st (some err)
      | none => ms.Decode config st mp
    | _ => .ret st (some .ErrTableExpected)

/-- `Mapper.Encode`: the destination table afterwards and the returned error.
With a nil `tbl` the assignment `*tbl = lua.LTable{}` dereferences nil. The
type assertion `val.(*lua.LTable)` panics when `val` is not a table. -/
def Encode (m : Mapper) (st : GoValue) (tbl : Option LTable) : Outcome LTable :=
  match tbl with
  | none => .panic
  | some tbl =>
    if tbl.MaxN ≠ 0 then .ret tbl (some .ErrTableExpected)
    else
      match FromGoValue m st with
      | .panic => .panic
      | .ret _ (some err) => .ret tbl (some err)
      | .ret val none =>
        match val with
        | .LTable t => .ret (t.ForEach.foldl (fun dst kv => dst.RawSet kv.1 kv.2) tbl) none
        | _ => .panic

/-! ## Notions used to state the properties -/

/-- The keys `1, ..., N` as Lua numbers, in increasing order. -/
def indexKeys (N : Nat) : List LValue :=
  (List.range N).map (fun i => .LNumber ((i + 1 : Nat) : Rat))

/-- Whether a Lua value is a bool, a string or a number. -/
def LValue.isScalar : LValue → Bool
  | .LBool _ => true
  | .LString _ => true
  | .LNumber _ => true
  | _ => false

/-- The pair `e` of a Go map is the translation of the pair `kv` of a table:
`AsGoValue` returns its key on the key of `kv` and its value on the value of
`kv`, each with a nil error. -/
def Converted (kv : LValue × LValue) (e : GoValue × GoValue) : Prop :=
  AsGoValue kv.1 = .ret e.1 none ∧ AsGoValue kv.2 = .ret e.2 none

/-- Whether a Go value is a key that `RawSet` stores in a hash part of the
table: a bool, a string, or a number that is not an array index. -/
def GoValue.isHashKey : GoValue → Bool
  | .bool _ => true
  | .string _ => true
  | .float64 x => !isArrayKey x
  | _ => false

/-- Whether the keys of a Go map, given as an association list, are pairwise
different. -/
def distinctKeys : List (GoValue × GoValue) → Bool
  | [] => true
  | (k, _) :: rest => rest.all (fun e => !GoValue.keyEq k e.1) && distinctKeys rest

mutual
/-- The intermediate trees that survive the way to Lua and back: bool, string
and float64 scalars, Mappings whose keys are pairwise different hash keys and
whose values are such trees, and Sequences that are not empty and whose
elements are such trees. Nil is not among them. -/
def GoValue.isGenericNode : GoValue → Bool
  | .bool _ => true
  | .string _ => true
  | .float64 _ => true
  | .map entries => genericEntries entries && distinctKeys entries
  | .slice elems => !elems.isEmpty && genericElems elems
  | _ => false
/-- Every key is a hash key and every value a generic node. -/
def genericEntries : List (GoValue × GoValue) → Bool
  | [] => true
  | (k, v) :: rest => k.isHashKey && v.isGenericNode && genericEntries rest
/-- Every element is a generic node. -/
def genericElems : List GoValue → Bool
  | [] => true
  | v :: rest => v.isGenericNode && genericElems rest
end

mutual
/-- Equality of two Go values up to the order in which the association lists
list the entries of a map (a Go map has no order). -/
inductive GoValue.Same : GoValue → GoValue → Prop where
  | refl (g : GoValue) : GoValue.Same g g
  | slice (xs ys : List GoValue) : SameElems xs ys → GoValue.Same (.slice xs) (.slice ys)
  | map (xs zs ys : List (GoValue × GoValue)) : xs.Perm zs → SameEntries zs ys →
      GoValue.Same (.map xs) (.map ys)
/-- Two lists of the same length with elements that are the same, position by
position. -/
inductive SameElems : List GoValue → List GoValue → Prop where
  | nil : SameElems [] []
  | cons (x y : GoValue) (xs ys : List GoValue) : GoValue.Same x y → SameElems xs ys →
      SameElems (x :: xs) (y :: ys)
/-- Two association lists of the same length with equal keys and values that
are the same, position by position. -/
inductive SameEntries : List (GoValue × GoValue) → List (GoValue × GoValue) → Prop where
  | nil : SameEntries [] []
  | cons (k x y : GoValue) (xs ys : List (GoValue × GoValue)) : GoValue.Same x y →
      SameEntries xs ys → SameEntries ((k, x) :: xs) ((k, y) :: ys)
end

/-- Whether a Lua value is a string. -/
def LValue.isString : LValue → Bool
  | .LString _ => true
  | _ => false

/-- Whether a Lua value is a key that `RawSet` stores in a hash part of the
table: a bool, a string, or a number that is not an array index. -/
def LValue.isHashKey : LValue → Bool
  | .LBool _ => true
  | .LString _ => true
  | .LNumber x => !isArrayKey x
  | _ => false

/-- The pairs of a list with a string key, as `strdict` holds them. -/
def strPart (cl : List (LValue × LValue)) : List (String × LValue) :=
  cl.filterMap (fun kv =>
    match kv.1 with
    | .LString s => some (s, kv.2)
    | _ => none)

/-- The pairs of a list whose key is not a string. -/
def dictPart (cl : List (LValue × LValue)) : List (LValue × LValue) :=
  cl.filter (fun kv => !kv.1.isString)

/-- The table with an empty array part that holds the pairs of a list in its
hash parts. -/
def tableOf (cl : List (LValue × LValue)) : LTable :=
  .mk [] (strPart cl) (dictPart cl)

/-- The Lua value `lv` is what `FromGoValue` returns on `g` with a nil error,
it is not nil, and `AsGoValue` takes it back to a value that is the same as
`g`. -/
def RoundTrip (m : Mapper) (g : GoValue) (lv : LValue) : Prop :=
  FromGoValue m g = .ret lv none ∧ lv.isNil = false ∧
    ∃ g1, AsGoValue lv = .ret g1 none ∧ GoValue.Same g1 g

/-- The pair `kv` of Lua values is how the entry `e` of a Go map makes the
round trip: its key is a hash key that `AsGoValue` takes back to the key of
`e`, and the values make the round trip. -/
def RoundTripEntry (m : Mapper) (e : GoValue × GoValue) (kv : LValue × LValue) : Prop :=
  FromGoValue m e.1 = .ret kv.1 none ∧ kv.1.isHashKey = true ∧
    AsGoValue kv.1 = .ret e.1 none ∧ RoundTrip m e.2 kv.2

/-- Whether a Lua value is of one of the kinds `AsGoValue` translates: nil,
bool, string, number or table. -/
def LValue.hasTranslation : LValue → Bool
  | .LNil => true
  | .LBool _ => true
  | .LString _ => true
  | .LNumber _ => true
  | .LTable _ => true
  | _ => false

/-- Whether a `reflect.Kind` is one of nil (no type), bool, string, a number
(integer or float of any width), struct, pointer, slice, array or map. -/
def kindHasTranslation : Kind → Bool
  | .Complex64 => false
  | .Complex128 => false
  | .Chan => false
  | .Func => false
  | .Interface => false
  | .UnsafePointer => false
  | _ => true

mutual
/-- Whether a host value is built from nil, the scalars `bool`, `string`,
`int` and `float64`, `map[interface{}]interface{}` mappings, slices and arrays,
with values of other types (`number`, `other`) as further leaves. -/
def GoValue.isPlain : GoValue → Bool
  | .nil => true
  | .bool _ => true
  | .string _ => true
  | .int _ => true
  | .float64 _ => true
  | .map entries => plainEntries entries
  | .slice elems => plainElems elems
  | .array elems => plainElems elems
  | .number _ _ => true
  | .other _ _ => true
  | _ => false
/-- Every key and every value is plain. -/
def plainEntries : List (GoValue × GoValue) → Bool
  | [] => true
  | (k, v) :: rest => k.isPlain && v.isPlain && plainEntries rest
/-- Every element is plain. -/
def plainElems : List GoValue → Bool
  | [] => true
  | v :: rest => v.isPlain && plainElems rest
end

mutual
/-- Whether a host value is, or contains at any depth (as a key or a value of
a mapping, or as an element of a slice or an array), a value of a type that
`FromGoValue` does not translate (`number`, `other`). -/
def GoValue.hasUnsupported : GoValue → Bool
  | .map entries => unsupportedInEntries entries
  | .slice elems => unsupportedInElems elems
  | .array elems => unsupportedInElems elems
  | .number _ _ => true
  | .other _ _ => true
  | _ => false
/-- Some key or some value is or contains a value without translation. -/
def unsupportedInEntries : List (GoValue × GoValue) → Bool
  | [] => false
  | (k, v) :: rest => k.hasUnsupported || v.hasUnsupported || unsupportedInEntries rest
/-- Some element is or contains a value without translation. -/
def unsupportedInElems : List GoValue → Bool
  | [] => false
  | v :: rest => v.hasUnsupported || unsupportedInElems rest
end

/-- The invariant of the tables that `RawSet` builds from the empty table: the
array part stays below `MaxArrayIndex`, each hash part holds a key once, and
`dict` holds neither a string nor an array index as a key. -/
def LTable.WF (tb : LTable) : Prop :=
  tb.array.length < MaxArrayIndex ∧
  (tb.strdict.map Prod.fst).Pairwise (fun a b => (a == b) = false) ∧
  (tb.dict.map Prod.fst).Pairwise (fun a b => LValue.keyEq a b = false) ∧
  ∀ kv ∈ tb.dict, kv.1.isString = false ∧ ∀ x, kv.1 = .LNumber x → isArrayKey x = false

/-- A decoder that accepts every configuration and every input and leaves the
configuration it was called with in its destination. -/
def recordConfig : Mapstructure (Option DecoderConfig) :=
  { NewDecoder := fun _ _ => none, Decode := fun config _ _ => .ret (some config) none }

/-- A decoder over the one-point destination that accepts every
configuration and every input. -/
def acceptAll : Mapstructure Unit :=
  { NewDecoder := fun _ _ => none, Decode := fun _ st _ => .ret st none }

end Glue

namespace Glue

/-! ## The closure of AsGoValue along ForEach -/

theorem asGoStep_none (l : List (LValue × LValue)) : l.foldl asGoStep none = none := by
  induction l with
  | nil => rfl
  | cons kv rest ih => simpa [List.foldl, asGoStep] using ih

theorem asGoArrayPart_eq (array : List LValue) (i : Nat) (st : MapState) :
    asGoArrayPart array i st = (arrayEntries array i).foldl asGoStep (some st) := by
  induction array generalizing i st with
  | nil => simp [asGoArrayPart, arrayEntries]
  | cons v rest ih =>
    cases hv : v.isNil
    · simp only [asGoArrayPart, arrayEntries, hv, List.foldl, asGoStep, AsGoValue]
      cases hc : asGoCallback st (.ret (.float64 ((i + 1 : Nat) : Rat)) none) (AsGoValue v) with
      | none => simp [asGoStep_none]
      | some st1 => simpa using ih (i + 1) st1
    · simpa [asGoArrayPart, arrayEntries, hv] using ih (i + 1) st

theorem asGoStrdict_eq (strdict : List (String × LValue)) (st : MapState) :
    asGoStrdict strdict st =
      ((strdict.filter (fun kv => !kv.2.isNil)).map
        (fun kv => ((.LString kv.1 : LValue), kv.2))).foldl asGoStep (some st) := by
  induction strdict generalizing st with
  | nil => simp [asGoStrdict]
  | cons kv rest ih =>
    obtain ⟨k, v⟩ := kv
    cases hv : v.isNil
    · simp only [asGoStrdict, hv, List.filter, Bool.not_false, List.map, List.foldl, asGoStep,
        AsGoValue]
      cases hc : asGoCallback st (.ret (.string k) none) (AsGoValue v) with
      | none => simp [asGoStep_none]
      | some st1 => simpa using ih st1
    · simpa [asGoStrdict, hv, List.filter] using ih st

theorem asGoDict_eq (dict : List (LValue × LValue)) (st : MapState) :
    asGoDict dict st = (dict.filter (fun kv => !kv.2.isNil)).foldl asGoStep (some st) := by
  induction dict generalizing st with
  | nil => simp [asGoDict]
  | cons kv rest ih =>
    obtain ⟨k, v⟩ := kv
    cases hv : v.isNil
    · simp only [asGoDict, hv, List.filter, Bool.not_false, List.foldl, asGoStep]
      cases hc : asGoCallback st (AsGoValue k) (AsGoValue v) with
      | none => simp [asGoStep_none]
      | some st1 => simpa using ih st1
    · simpa [asGoDict, hv, List.filter] using ih st

/-- The mapping branch of `AsGoValue` is the closure run over the pairs of
`ForEach`, followed by `return ret, err`. -/
theorem AsGoValue_mapping (tb : LTable) (h : tb.MaxN = 0) :
    AsGoValue (.LTable tb) =
      match tb.ForEach.foldl asGoStep (some { ret := [], err := none }) with
      | none => .panic
      | some st => .ret (.map st.ret) st.err := by
  obtain ⟨array, strdict, dict⟩ := tb
  simp only [LTable.MaxN, LTable.array] at h
  simp only [AsGoValue, asGoTable, h, if_true, LTable.ForEach, LTable.array, LTable.strdict,
    LTable.dict, List.foldl_append, asGoArrayPart_eq, asGoStrdict_eq, asGoDict_eq]
  cases h1 : (arrayEntries array 0).foldl asGoStep (some { ret := [], err := none }) with
  | none => simp [asGoStep_none]
  | some st1 =>
    simp only []
    cases h2 : ((strdict.filter (fun kv => !kv.2.isNil)).map
        (fun kv => ((.LString kv.1 : LValue), kv.2))).foldl asGoStep (some st1) with
    | none => simp [asGoStep_none]
    | some st2 => simp only []

end Glue

namespace Glue

/-! ## The array branch of AsGoValue -/

/-- The array branch of `AsGoValue` is the loop over the array part. -/
theorem AsGoValue_sequence_eq (tb : LTable) (h : tb.MaxN ≠ 0) :
    AsGoValue (.LTable tb) = asGoItems tb.array tb.MaxN [] := by
  obtain ⟨array, strdict, dict⟩ := tb
  simp only [LTable.MaxN, LTable.array] at h
  simp [AsGoValue, asGoTable, h, LTable.MaxN, LTable.array]

theorem RawGetInt_succ (tb : LTable) (k : Nat) :
    tb.RawGetInt (k + 1) = tb.array.getD k .LNil := by
  simp [LTable.RawGetInt]

theorem asGoItems_success (cells : List LValue) (n : Nat) (ret : List GoValue)
    (h : ∀ k, k < n → ∃ g, AsGoValue (cells.getD k .LNil) = .ret g none) :
    ∃ xs, asGoItems cells n ret = .ret (.slice (ret ++ xs)) none ∧ xs.length = n ∧
      ∀ k, k < n → AsGoValue (cells.getD k .LNil) = .ret (xs.getD k .nil) none := by
  induction cells generalizing n ret with
  | nil =>
    cases n with
    | zero => exact ⟨[], by simp [asGoItems], rfl, by intro k hk; omega⟩
    | succ n =>
      refine ⟨List.replicate (n + 1) .nil, by simp [asGoItems], by simp, ?_⟩
      intro k hk
      have : (List.replicate (n + 1) GoValue.nil).getD k .nil = .nil := by
        simp [List.getD_eq_getElem?_getD, List.getElem?_replicate, hk]
      simp [this, AsGoValue, List.getD]
  | cons x rest ih =>
    cases n with
    | zero => exact ⟨[], by simp [asGoItems], rfl, by intro k hk; omega⟩
    | succ n =>
      obtain ⟨g, hg⟩ := h 0 (Nat.succ_pos n)
      simp only [List.getD_cons_zero] at hg
      obtain ⟨xs, hxs, hlen, hget⟩ := ih n (ret ++ [g]) (fun k hk => by
        simpa using h (k + 1) (Nat.succ_lt_succ hk))
      refine ⟨g :: xs, ?_, by simp [hlen], ?_⟩
      · simp [asGoItems, hg, hxs]
      · intro k hk
        cases k with
        | zero => simpa using hg
        | succ k => simpa using hget k (Nat.lt_of_succ_lt_succ hk)

theorem asGoItems_failure (cells : List LValue) (n : Nat) (ret : List GoValue) (i : Nat)
    (hi : i < n)
    (hprev : ∀ k, k < i → ∃ g, AsGoValue (cells.getD k .LNil) = .ret g none)
    (v : GoValue) (e : GoError) (hfail : AsGoValue (cells.getD i .LNil) = .ret v (some e)) :
    asGoItems cells n ret = .ret .nil (some e) := by
  induction cells generalizing n ret i with
  | nil => simp [AsGoValue, List.getD] at hfail
  | cons x rest ih =>
    cases n with
    | zero => omega
    | succ n =>
      cases i with
      | zero =>
        simp only [List.getD_cons_zero] at hfail
        simp [asGoItems, hfail]
      | succ i =>
        obtain ⟨g, hg⟩ := hprev 0 (Nat.succ_pos i)
        simp only [List.getD_cons_zero] at hg
        simp only [asGoItems, hg]
        exact ih n (ret ++ [g]) i (Nat.lt_of_succ_lt_succ hi)
          (fun k hk => by simpa using hprev (k + 1) (Nat.succ_lt_succ hk))
          (by simpa using hfail)

theorem asGoItems_panic (cells : List LValue) (n : Nat) (ret : List GoValue) (i : Nat)
    (hi : i < n)
    (hprev : ∀ k, k < i → ∃ g, AsGoValue (cells.getD k .LNil) = .ret g none)
    (hfail : AsGoValue (cells.getD i .LNil) = .panic) :
    asGoItems cells n ret = .panic := by
  induction cells generalizing n ret i with
  | nil => simp [AsGoValue, List.getD] at hfail
  | cons x rest ih =>
    cases n with
    | zero => omega
    | succ n =>
      cases i with
      | zero =>
        simp only [List.getD_cons_zero] at hfail
        simp [asGoItems, hfail]
      | succ i =>
        obtain ⟨g, hg⟩ := hprev 0 (Nat.succ_pos i)
        simp only [List.getD_cons_zero] at hg
        simp only [asGoItems, hg]
        exact ih n (ret ++ [g]) i (Nat.lt_of_succ_lt_succ hi)
          (fun k hk => by simpa using hprev (k + 1) (Nat.succ_lt_succ hk))
          (by simpa using hfail)

/-- A table with `MaxN = N ≥ 1` whose cells `1..N` all convert becomes the
slice of the `N` converted cells. -/
theorem AsGoValue_sequence_success (tb : LTable) (hN : tb.MaxN ≠ 0)
    (h : ∀ i, 1 ≤ i → i ≤ tb.MaxN → ∃ g, AsGoValue (tb.RawGetInt i) = .ret g none) :
    ∃ xs, AsGoValue (.LTable tb) = .ret (.slice xs) none ∧ xs.length = tb.MaxN ∧
      ∀ i, 1 ≤ i → i ≤ tb.MaxN →
        AsGoValue (tb.RawGetInt i) = .ret (xs.getD (i - 1) .nil) none := by
  obtain ⟨xs, hxs, hlen, hget⟩ := asGoItems_success tb.array tb.MaxN [] (fun k hk => by
    simpa [RawGetInt_succ] using h (k + 1) (Nat.succ_pos k) hk)
  refine ⟨xs, by simpa [AsGoValue_sequence_eq tb hN] using hxs, hlen, ?_⟩
  intro i h1 h2
  obtain ⟨k, rfl⟩ : ∃ k, i = k + 1 := ⟨i - 1, by omega⟩
  simpa [RawGetInt_succ] using hget k h2

end Glue

namespace Glue

/-! ## The captured error variable -/

theorem asGoCallback_err (st st1 : MapState) (k v : Outcome GoValue)
    (h : asGoCallback st k v = some st1) : st1.err = st.err := by
  unfold asGoCallback at h
  split at h
  · cases h; rfl
  · split at h
    · cases h
    · cases h; rfl
    · split at h
      · cases h
      · cases h; rfl
      · split at h
        · cases h
        · cases h; rfl

theorem asGoStep_foldl_err (l : List (LValue × LValue)) (st st1 : MapState)
    (h : l.foldl asGoStep (some st) = some st1) : st1.err = st.err := by
  induction l generalizing st with
  | nil => simp at h; rw [h]
  | cons kv rest ih =>
    simp only [List.foldl, asGoStep] at h
    cases hc : asGoCallback st (AsGoValue kv.1) (AsGoValue kv.2) with
    | none => rw [hc, asGoStep_none] at h; cases h
    | some st2 =>
      rw [hc] at h
      rw [ih st2 h, asGoCallback_err st st2 _ _ hc]

/-- The mapping branch of `AsGoValue` never returns an error: it panics or
returns a map with a nil error. -/
theorem AsGoValue_mapping_outcome (tb : LTable) (h : tb.MaxN = 0) :
    AsGoValue (.LTable tb) = .panic ∨ ∃ mp, AsGoValue (.LTable tb) = .ret (.map mp) none := by
  rw [AsGoValue_mapping tb h]
  cases hf : tb.ForEach.foldl asGoStep (some { ret := [], err := none }) with
  | none => exact Or.inl rfl
  | some st =>
    refine Or.inr ⟨st.ret, ?_⟩
    have := asGoStep_foldl_err _ _ _ hf
    simp [this]

/-! ## MaxN and the array part -/

theorem maxNLoop_eq_zero (array : List LValue) (n : Nat) :
    maxNLoop array n = 0 ↔ ∀ k, k < n → (array.getD k .LNil).isNil = true := by
  induction n with
  | zero => simp [maxNLoop]
  | succ n ih =>
    simp only [maxNLoop]
    cases hv : (array.getD n .LNil).isNil
    · simp only [Bool.false_eq_true, if_false, Nat.succ_ne_zero, false_iff, not_forall]
      exact ⟨n, Nat.lt_succ_self n, by rw [hv]; exact Bool.false_ne_true⟩
    · simp only [if_true, ih]
      constructor
      · intro h k hk
        rcases Nat.lt_succ_iff_lt_or_eq.mp hk with h1 | h1
        · exact h k h1
        · rw [h1]; exact hv
      · intro h k hk
        exact h k (Nat.lt_succ_of_lt hk)

theorem maxNLoop_le (array : List LValue) (n : Nat) : maxNLoop array n ≤ n := by
  induction n with
  | zero => simp [maxNLoop]
  | succ n ih =>
    simp only [maxNLoop]
    split
    · exact Nat.le_succ_of_le ih
    · exact Nat.le_refl _

theorem arrayEntries_eq_nil (array : List LValue) (i : Nat) :
    arrayEntries array i = [] ↔ ∀ v ∈ array, v.isNil = true := by
  induction array generalizing i with
  | nil => simp [arrayEntries]
  | cons v rest ih =>
    simp only [arrayEntries]
    cases hv : v.isNil
    · simp [hv]
    · simp [hv, ih (i + 1)]

theorem MaxN_eq_zero_of_all_nil (tb : LTable) (h : ∀ v ∈ tb.array, v.isNil = true) :
    tb.MaxN = 0 := by
  unfold LTable.MaxN
  rw [maxNLoop_eq_zero]
  intro k hk
  have : tb.array.getD k .LNil = tb.array[k] := by
    simp [List.getD_eq_getElem?_getD, List.getElem?_eq_getElem hk]
  rw [this]
  exact h _ (List.getElem_mem hk)

end Glue

namespace Glue

/-! ## Claims on AsGoValue, Decode and Encode -/

/-- Claim C1 (defect of the code). On the table `{a = <function>, b = true}`,
which has `MaxN = 0` and whose entry `a` holds a value `AsGoValue` cannot
convert, `AsGoValue` returns the map `{"b": true}` together with a nil error:
the failing entry is dropped and the call reports success. -/
theorem AsGoValue_mapping_drops_failing_entry :
    LTable.MaxN (.mk [] [("a", .LFunction 0), ("b", .LBool true)] []) = 0 ∧
    AsGoValue (.LFunction 0) = .ret .nil (some .ErrCannotConvert) ∧
    AsGoValue (.LTable (.mk [] [("a", .LFunction 0), ("b", .LBool true)] [])) =
      .ret (.map [(.string "b", .bool true)]) none :=
  ⟨rfl, rfl, rfl⟩

/-- Claim C2, refuted as stated. The table built from the empty table by
`RawSet` under the keys 1, 2 and 4 has exactly these three keys, which are not
`{1,...,N}` for any `N`; `AsGoValue` returns the Sequence of its cells
`1..4` (with nil for the missing key 3), not a Mapping. -/
theorem AsGoValue_keys_1_2_4_sequence :
    ((((LTable.empty.RawSet (.LNumber 1) (.LBool true)).RawSet (.LNumber 2)
        (.LBool false)).RawSet (.LNumber 4) (.LBool true)).ForEach.map Prod.fst
      = [.LNumber 1, .LNumber 2, .LNumber 4]) ∧
    AsGoValue (.LTable (((LTable.empty.RawSet (.LNumber 1) (.LBool true)).RawSet (.LNumber 2)
        (.LBool false)).RawSet (.LNumber 4) (.LBool true)))
      = .ret (.slice [.bool true, .bool false, .nil, .bool true]) none :=
  ⟨rfl, rfl⟩

/-- Claim C2, amended. For every Lua table that holds no value in a cell of
its array part (`RawGetInt` finds nil at every index; `RawSet` keeps exactly
the keys `n` with `0 < n < MaxArrayIndex` there) and on which `AsGoValue` does
not panic, `AsGoValue` returns a Mapping and never a Sequence; the empty table
gives the Mapping with zero entries. -/
theorem AsGoValue_no_array_cell_mapping (tb : LTable)
    (hcells : ∀ i, (tb.RawGetInt i).isNil = true)
    (hret : AsGoValue (.LTable tb) ≠ .panic) :
    (∃ mp e, AsGoValue (.LTable tb) = .ret (.map mp) e) ∧
    (∀ xs e, AsGoValue (.LTable tb) ≠ .ret (.slice xs) e) ∧
    AsGoValue (.LTable .empty) = .ret (.map []) none := by
  have h0 : tb.MaxN = 0 := by
    unfold LTable.MaxN
    rw [maxNLoop_eq_zero]
    intro k _
    simpa [RawGetInt_succ] using hcells (k + 1)
  rcases AsGoValue_mapping_outcome tb h0 with h | ⟨mp, h⟩
  · exact absurd h hret
  · refine ⟨⟨mp, none, h⟩, ?_, rfl⟩
    intro xs e hxs
    rw [h] at hxs
    cases hxs

theorem AsGoValue_no_array_cell_mapping_witness :
    (∃ mp e, AsGoValue (.LTable ((((LTable.empty.RawSet (.LString "a") (.LNumber 1)).RawSet
        (.LNumber 0) (.LString "z")).RawSet (.LNumber (-1)) (.LBool true)).RawSet
        (.LNumber 67108864) (.LBool false))) = .ret (.map mp) e) ∧
    (∀ xs e, AsGoValue (.LTable ((((LTable.empty.RawSet (.LString "a") (.LNumber 1)).RawSet
        (.LNumber 0) (.LString "z")).RawSet (.LNumber (-1)) (.LBool true)).RawSet
        (.LNumber 67108864) (.LBool false))) ≠ .ret (.slice xs) e) ∧
    AsGoValue (.LTable .empty) = .ret (.map []) none :=
  AsGoValue_no_array_cell_mapping
    ((((LTable.empty.RawSet (.LString "a") (.LNumber 1)).RawSet
        (.LNumber 0) (.LString "z")).RawSet (.LNumber (-1)) (.LBool true)).RawSet
        (.LNumber 67108864) (.LBool false))
    (by
      intro i
      have harr : LTable.array ((((LTable.empty.RawSet (.LString "a") (.LNumber 1)).RawSet
          (.LNumber 0) (.LString "z")).RawSet (.LNumber (-1)) (.LBool true)).RawSet
          (.LNumber 67108864) (.LBool false)) = [] := rfl
      unfold LTable.RawGetInt
      rw [harr]
      split <;> rfl)
    (by
      have hval : AsGoValue (.LTable ((((LTable.empty.RawSet (.LString "a") (.LNumber 1)).RawSet
          (.LNumber 0) (.LString "z")).RawSet (.LNumber (-1)) (.LBool true)).RawSet
          (.LNumber 67108864) (.LBool false))) =
          .ret (.map [(.string "a", .float64 1), (.float64 0, .string "z"),
            (.float64 (-1), .bool true), (.float64 67108864, .bool false)]) none := rfl
      rw [hval]
      intro h
      cases h)

/-- Claim C3, refuted as stated. The destination `{a = 1}` holds a key/value
pair; `Encode` of the map `{"b": true}` into it returns a nil error and leaves
the destination with both pairs. -/
theorem Encode_merges_into_hash_only_table :
    Encode (NewMapper 0) (.map [(.string "b", .bool true)])
        (some (.mk [] [("a", .LNumber 1)] [])) =
      .ret (.mk [] [("a", .LNumber 1), ("b", .LBool true)] []) none :=
  rfl

/-- Claim C3, amended. For every destination table whose array length `MaxN`
is not 0 (it holds a value under an array index), `Encode` returns
`ErrTableExpected` and leaves the table as it was. -/
theorem Encode_rejects_array_destination (m : Mapper) (st : GoValue) (tb : LTable)
    (h : tb.MaxN ≠ 0) : Encode m st (some tb) = .ret tb (some .ErrTableExpected) := by
  simp [Encode, h]

theorem Encode_rejects_array_destination_witness :
    LTable.MaxN (.mk [.LNumber 10] [] []) ≠ 0 ∧
    Encode (NewMapper 0) (.map [(.string "b", .bool true)]) (some (.mk [.LNumber 10] [] [])) =
      .ret (.mk [.LNumber 10] [] []) (some .ErrTableExpected) :=
  ⟨by decide, Encode_rejects_array_destination _ _ _ (by decide)⟩

/-- Claim C4, refuted as stated. The table `{<function>}` has array length
`MaxN = 1`; `Decode` on it returns `ErrCannotConvert`, the error of
`AsGoValue` on its first cell, not `ErrTableExpected`. -/
theorem Decode_sequence_with_function :
    LTable.MaxN (.mk [.LFunction 0] [] []) = 1 ∧
    Decode acceptAll (NewMapper 0) (.mk [.LFunction 0] [] []) () =
      .ret () (some .ErrCannotConvert) :=
  ⟨rfl, rfl⟩

/-- Claim C4, amended. For every table with array length `MaxN ≥ 1` whose
cells `1..MaxN` all convert, `Decode` returns `ErrTableExpected` and leaves the
destination as it was, whatever the external decoder is: the decoder is not
called. -/
theorem Decode_rejects_sequence {σ : Type} (ms : Mapstructure σ) (m : Mapper) (tb : LTable)
    (st : σ) (hN : tb.MaxN ≠ 0)
    (h : ∀ i, 1 ≤ i → i ≤ tb.MaxN → ∃ g, AsGoValue (tb.RawGetInt i) = .ret g none) :
    Decode ms m tb st = .ret st (some .ErrTableExpected) := by
  obtain ⟨xs, hxs, _, _⟩ := AsGoValue_sequence_success tb hN h
  simp [Decode, hxs]

theorem Decode_rejects_sequence_witness :
    Decode acceptAll (NewMapper 0) (.mk [.LNumber 10, .LNumber 20, .LNumber 30] [] []) () =
      .ret () (some .ErrTableExpected) :=
  Decode_rejects_sequence acceptAll (NewMapper 0)
    (.mk [.LNumber 10, .LNumber 20, .LNumber 30] [] []) () (by decide) (by
      intro i h1 h2
      have h3 : i ≤ 3 := h2
      interval_cases i
      · exact ⟨_, rfl⟩
      · exact ⟨_, rfl⟩
      · exact ⟨_, rfl⟩)

/-- Claim C8. For every table that `AsGoValue` treats as a sequence
(`MaxN ≥ 1`), if `i` is the smallest index in `1..MaxN` at which `AsGoValue`
does not succeed and `AsGoValue` returns the error `e` there, then `AsGoValue`
on the table returns the nil result together with `e`. -/
theorem AsGoValue_sequence_first_error (tb : LTable) (i : Nat) (h1 : 1 ≤ i)
    (h2 : i ≤ tb.MaxN)
    (hprev : ∀ j, 1 ≤ j → j < i → ∃ g, AsGoValue (tb.RawGetInt j) = .ret g none)
    (v : GoValue) (e : GoError) (hfail : AsGoValue (tb.RawGetInt i) = .ret v (some e)) :
    AsGoValue (.LTable tb) = .ret .nil (some e) := by
  obtain ⟨k, rfl⟩ : ∃ k, i = k + 1 := ⟨i - 1, by omega⟩
  rw [AsGoValue_sequence_eq tb (by omega)]
  exact asGoItems_failure tb.array tb.MaxN [] k h2
    (fun j hj => by simpa [RawGetInt_succ] using hprev (j + 1) (Nat.succ_pos j) (by omega))
    v e (by simpa [RawGetInt_succ] using hfail)

theorem AsGoValue_sequence_first_error_witness :
    AsGoValue (.LTable (.mk [.LBool true, .LFunction 0, .LUserData 1] [] [])) =
      .ret .nil (some .ErrCannotConvert) :=
  AsGoValue_sequence_first_error (.mk [.LBool true, .LFunction 0, .LUserData 1] [] []) 2
    (by decide) (by decide) (by
      intro j h1 h2
      interval_cases j
      exact ⟨_, rfl⟩) .nil .ErrCannotConvert rfl

/-- Claim C9 (defect of the code). On the table whose only entry has the
empty table as its key (and `true` as its value), which has `MaxN = 0`,
`AsGoValue` panics: the key converts to a Go map, and the assignment
`ret[lKey] = lValue` cannot hash it. No conversion error is returned. -/
theorem AsGoValue_table_key_panics :
    LTable.MaxN (.mk [] [] [(.LTable .empty, .LBool true)]) = 0 ∧
    AsGoValue (.LTable .empty) = .ret (.map []) none ∧
    AsGoValue (.LTable (.mk [] [] [(.LTable .empty, .LBool true)])) = .panic :=
  ⟨rfl, rfl, rfl⟩

/-- Claim C10, refuted as stated. The host value `int64(5)` is an integer
scalar; `FromGoValue` returns the nil value and `ErrCannotConvert` on it. -/
theorem FromGoValue_int64_cannot_convert :
    FromGoValue (NewMapper 0) (.number .Int64 5) =
      .ret .nilInterface (some .ErrCannotConvert) :=
  rfl

theorem float64OfInt_exact (t : Int) (ht : t.natAbs < 2 ^ 53) : float64OfInt t = (t : Rat) := by
  unfold float64OfInt
  exact if_pos ht

/-- Claim C10, amended. For every host scalar of type `bool`, `string`, `int`
or `float64`, `FromGoValue` succeeds and returns the `LBool`, `LString` or
`LNumber` carrying the same value (for an `int` below `2^53` in absolute
value, which `float64` holds exactly); the untyped nil returns `LNil`; a
scalar of any other numeric type (sized or unsigned integer, `float32`)
returns the nil value and `ErrCannotConvert`. -/
theorem FromGoValue_scalars (m : Mapper) (b : Bool) (s : String) (t : Int) (x : Float64)
    (k : NumKind) (y : Rat) (ht : t.natAbs < 2 ^ 53) :
    FromGoValue m (.bool b) = .ret (.LBool b) none ∧
    FromGoValue m (.string s) = .ret (.LString s) none ∧
    FromGoValue m (.int t) = .ret (.LNumber (t : Rat)) none ∧
    FromGoValue m (.float64 x) = .ret (.LNumber x) none ∧
    FromGoValue m .nil = .ret .LNil none ∧
    FromGoValue m (.number k y) = .ret .nilInterface (some .ErrCannotConvert) := by
  refine ⟨rfl, rfl, ?_, rfl, rfl, rfl⟩
  simp [FromGoValue, float64OfInt_exact t ht]

theorem FromGoValue_scalars_witness :
    FromGoValue (NewMapper 0) (.bool true) = .ret (.LBool true) none ∧
    FromGoValue (NewMapper 0) (.string "x") = .ret (.LString "x") none ∧
    FromGoValue (NewMapper 0) (.int (-7)) = .ret (.LNumber ((-7 : Int) : Rat)) none ∧
    FromGoValue (NewMapper 0) (.float64 (3 / 2)) = .ret (.LNumber (3 / 2)) none ∧
    FromGoValue (NewMapper 0) .nil = .ret .LNil none ∧
    FromGoValue (NewMapper 0) (.number .Uint8 200) = .ret .nilInterface (some .ErrCannotConvert) :=
  FromGoValue_scalars (NewMapper 0) true "x" (-7) (3 / 2) .Uint8 200 (by decide)

end Glue

namespace Glue

/-! ## Tables whose keys are 1..N -/

theorem isArrayKey_natCast (k : Nat) (h0 : 0 < k) (h1 : k < MaxArrayIndex) :
    isArrayKey ((k : Nat) : Rat) = true := by
  have hden : ((k : Nat) : Rat).den = 1 := Rat.intCast_den (k : Int)
  have hpos : (0 : Rat) < (k : Rat) := by exact_mod_cast h0
  have hlt : ((k : Nat) : Rat) < ((MaxArrayIndex : Nat) : Rat) := by exact_mod_cast h1
  simp [isArrayKey, hden, hpos, hlt]

theorem arrayEntries_key_ge (array : List LValue) (s : Nat) (kv : LValue × LValue)
    (h : kv ∈ arrayEntries array s) : ∃ k, s < k ∧ kv.1 = .LNumber ((k : Nat) : Rat) := by
  induction array generalizing s with
  | nil => simp [arrayEntries] at h
  | cons v rest ih =>
    simp only [arrayEntries] at h
    split at h
    · obtain ⟨k, hk, he⟩ := ih (s + 1) h
      exact ⟨k, by omega, he⟩
    · rcases List.mem_cons.mp h with h1 | h1
      · exact ⟨s + 1, by omega, by rw [h1]⟩
      · obtain ⟨k, hk, he⟩ := ih (s + 1) h1
        exact ⟨k, by omega, he⟩

theorem LNumber_natCast_inj (a b : Nat)
    (h : (LValue.LNumber ((a : Nat) : Rat)) = .LNumber ((b : Nat) : Rat)) : a = b := by
  injection h with h
  exact_mod_cast h

/-- When the array pass of `ForEach` from index `s` delivers exactly the keys
`s+1, ..., s+N`, the first `N` cells are not nil and all later cells are. -/
theorem arrayEntries_keys_range (array : List LValue) (s N : Nat)
    (h : (arrayEntries array s).map Prod.fst =
      (List.range N).map (fun j => LValue.LNumber ((s + j + 1 : Nat) : Rat))) :
    (∀ k, k < N → (array.getD k .LNil).isNil = false) ∧
    (∀ k, N ≤ k → (array.getD k .LNil).isNil = true) := by
  induction array generalizing s N with
  | nil =>
    cases N with
    | zero => exact ⟨by intro k hk; omega, by intro k _; simp [List.getD, LValue.isNil]⟩
    | succ N => simp [arrayEntries, List.range_succ_eq_map] at h
  | cons v rest ih =>
    cases hv : v.isNil
    · -- the cell is not nil: it carries the key s+1
      simp only [arrayEntries, hv, Bool.false_eq_true, if_false, List.map_cons] at h
      cases N with
      | zero => simp at h
      | succ N =>
        rw [List.range_succ_eq_map, List.map_cons, List.map_map] at h
        have htail := (List.cons.inj h).2
        have := ih (s + 1) N (by
          rw [htail]
          apply List.map_congr_left
          intro j _
          simp only [Function.comp]
          congr 2
          omega)
        refine ⟨?_, ?_⟩
        · intro k hk
          cases k with
          | zero => simpa using hv
          | succ k => simpa using this.1 k (by omega)
        · intro k hk
          cases k with
          | zero => omega
          | succ k => simpa using this.2 k (by omega)
    · -- the cell is nil: no key s+1 can follow
      simp only [arrayEntries, hv, if_true] at h
      cases N with
      | zero =>
        have := ih (s + 1) 0 (by simpa using h)
        refine ⟨by intro k hk; omega, ?_⟩
        intro k _
        cases k with
        | zero => simpa using hv
        | succ k => simpa using this.2 k (Nat.zero_le k)
      | succ N =>
        exfalso
        rw [List.range_succ_eq_map, List.map_cons] at h
        cases he : arrayEntries rest (s + 1) with
        | nil => rw [he] at h; simp at h
        | cons kv tl =>
          rw [he, List.map_cons] at h
          have hhead := (List.cons.inj h).1
          obtain ⟨k, hk, hkey⟩ := arrayEntries_key_ge rest (s + 1) kv (by simp [he])
          rw [hkey] at hhead
          have := LNumber_natCast_inj _ _ hhead
          omega

theorem maxNLoop_of_last (array : List LValue) (N n : Nat) (hN : 1 ≤ N) (hn : N ≤ n)
    (hlast : (array.getD (N - 1) .LNil).isNil = false)
    (hrest : ∀ k, N ≤ k → (array.getD k .LNil).isNil = true) :
    maxNLoop array n = N := by
  induction n with
  | zero => omega
  | succ n ih =>
    simp only [maxNLoop]
    rcases Nat.lt_or_ge n N with h | h
    · have : n = N - 1 := by omega
      rw [this, hlast]
      simp
      omega
    · rw [hrest n h]
      simpa using ih h

theorem getD_isNil_false_lt (array : List LValue) (k : Nat)
    (h : (array.getD k .LNil).isNil = false) : k < array.length := by
  by_contra hk
  have : array.getD k .LNil = .LNil := by
    simp [List.getD_eq_getElem?_getD, List.getElem?_eq_none (Nat.le_of_not_lt hk)]
  rw [this] at h
  cases h

theorem arrayEntries_mem (array : List LValue) (s k : Nat)
    (h : (array.getD k .LNil).isNil = false) :
    (LValue.LNumber ((s + k + 1 : Nat) : Rat), array.getD k .LNil) ∈ arrayEntries array s := by
  induction array generalizing s k with
  | nil => simp [List.getD, LValue.isNil] at h
  | cons v rest ih =>
    cases k with
    | zero =>
      simp only [List.getD_cons_zero] at h ⊢
      simp [arrayEntries, h]
    | succ k =>
      simp only [List.getD_cons_succ] at h ⊢
      have := ih (s + 1) k h
      have he : s + 1 + k + 1 = s + (k + 1) + 1 := by omega
      rw [he] at this
      simp only [arrayEntries]
      split
      · exact this
      · exact List.mem_cons_of_mem _ this

/-- When the first `N` cells of the array part are not nil, the array pass of
`ForEach` starts with `N` pairs and goes on with the cells behind them. -/
theorem arrayEntries_prefix (array : List LValue) (s N : Nat)
    (h : ∀ k, k < N → (array.getD k .LNil).isNil = false) :
    ∃ front, front.length = N ∧
      arrayEntries array s = front ++ arrayEntries (array.drop N) (s + N) := by
  induction N generalizing array s with
  | zero => exact ⟨[], rfl, by simp⟩
  | succ N ih =>
    cases array with
    | nil =>
      have := h 0 (Nat.succ_pos N)
      simp [List.getD, LValue.isNil] at this
    | cons v rest =>
      have hv : v.isNil = false := by simpa using h 0 (Nat.succ_pos N)
      obtain ⟨front, hlen, hfront⟩ := ih rest (s + 1) (fun k hk => by
        simpa using h (k + 1) (Nat.succ_lt_succ hk))
      refine ⟨(.LNumber ((s + 1 : Nat) : Rat), v) :: front, by simp [hlen], ?_⟩
      simp only [arrayEntries, hv, Bool.false_eq_true, if_false, List.drop_succ_cons,
        List.cons_append, hfront]
      congr 3
      omega

theorem getD_drop_isNil (array : List LValue) (N k : Nat) (hk : N ≤ k)
    (h : ∀ v ∈ array.drop N, v.isNil = true) : (array.getD k .LNil).isNil = true := by
  rcases Nat.lt_or_ge k array.length with hlt | hge
  · have hget : array.getD k .LNil = array[k] := by
      simp [List.getD_eq_getElem?_getD, List.getElem?_eq_getElem hlt]
    rw [hget]
    apply h
    have hk2 : k - N < (array.drop N).length := by
      rw [List.length_drop]
      omega
    have : (array.drop N)[k - N] = array[k] := by
      rw [List.getElem_drop]
      congr 1
      omega
    rw [← this]
    exact List.getElem_mem hk2
  · have : array.getD k .LNil = .LNil := by
      simp [List.getD_eq_getElem?_getD, List.getElem?_eq_none hge]
    rw [this]
    rfl

/-- Claim C5, refuted as stated. The table built from the empty table by
`RawSet` under the key 1 and by `RawSetH` under the key 2 has exactly the keys
1 and 2, and its values convert; its key 2 is held in the hash part, so its
array length is 1 and `AsGoValue` returns a Sequence of one element, not of
two. -/
theorem AsGoValue_index_key_in_hash_part :
    ((LTable.empty.RawSet (.LNumber 1) (.LBool true)).RawSetH (.LNumber 2)
        (.LBool false)).ForEach.map Prod.fst = indexKeys 2 ∧
    AsGoValue (.LBool true) = .ret (.bool true) none ∧
    AsGoValue (.LBool false) = .ret (.bool false) none ∧
    AsGoValue (.LTable ((LTable.empty.RawSet (.LNumber 1) (.LBool true)).RawSetH (.LNumber 2)
        (.LBool false))) = .ret (.slice [.bool true]) none :=
  ⟨rfl, rfl, rfl, rfl⟩

/-- Claim C5, amended. For every Lua table whose keys are exactly `1..N` with
`N ≥ 1`, each of them holding its value in the cell of the array part that
`RawGetInt` reads, and whose values all convert, `AsGoValue` returns a Sequence
of exactly `N` elements whose `i`-th element is what `AsGoValue` returns on
the value stored at index `i`, in index order. -/
theorem AsGoValue_sequence_of_index_keys (tb : LTable) (N : Nat) (hN : 1 ≤ N)
    (hkeys : tb.ForEach.map Prod.fst = indexKeys N)
    (hcell : ∀ i, 1 ≤ i → i ≤ N → (tb.RawGetInt i).isNil = false)
    (hconv : ∀ kv ∈ tb.ForEach, ∃ g, AsGoValue kv.2 = .ret g none) :
    ∃ xs, AsGoValue (.LTable tb) = .ret (.slice xs) none ∧ xs.length = N ∧
      ∀ i, 1 ≤ i → i ≤ N →
        (LValue.LNumber ((i : Nat) : Rat), tb.RawGetInt i) ∈ tb.ForEach ∧
        AsGoValue (tb.RawGetInt i) = .ret (xs.getD (i - 1) .nil) none := by
  have hfirst : ∀ k, k < N → (tb.array.getD k .LNil).isNil = false := fun k hk => by
    simpa [RawGetInt_succ] using hcell (k + 1) (Nat.succ_pos k) hk
  -- the first N cells deliver N pairs, so nothing else delivers a pair
  obtain ⟨front, hlen, hfront⟩ := arrayEntries_prefix tb.array 0 N hfirst
  have hcount : tb.ForEach.length = N := by
    have := congrArg List.length hkeys
    simpa [indexKeys] using this
  have hrest : arrayEntries (tb.array.drop N) (0 + N) = [] := by
    have h1 : tb.ForEach.length = N + ((arrayEntries (tb.array.drop N) (0 + N)).length
        + ((tb.strdict.filter (fun kv => !kv.2.isNil)).map
            (fun kv => ((.LString kv.1 : LValue), kv.2))).length
        + (tb.dict.filter (fun kv => !kv.2.isNil)).length) := by
      simp only [LTable.ForEach, hfront, List.length_append, hlen]
      omega
    rw [hcount] at h1
    exact List.length_eq_zero.mp (by omega)
  have hlater : ∀ k, N ≤ k → (tb.array.getD k .LNil).isNil = true := fun k hk =>
    getD_drop_isNil tb.array N k hk ((arrayEntries_eq_nil _ _).mp hrest)
  have hMaxN : tb.MaxN = N :=
    maxNLoop_of_last tb.array N tb.array.length hN (by
      have := getD_isNil_false_lt tb.array (N - 1) (hfirst (N - 1) (by omega))
      omega) (hfirst (N - 1) (by omega)) hlater
  have hmem : ∀ i, 1 ≤ i → i ≤ N →
      (LValue.LNumber ((i : Nat) : Rat), tb.RawGetInt i) ∈ tb.ForEach := by
    intro i h1 h2
    obtain ⟨k, rfl⟩ : ∃ k, i = k + 1 := ⟨i - 1, by omega⟩
    rw [RawGetInt_succ]
    have := arrayEntries_mem tb.array 0 k (hfirst k (by omega))
    simp only [LTable.ForEach]
    exact List.mem_append_left _ (List.mem_append_left _ (by simpa using this))
  obtain ⟨xs, hxs, hlenxs, hget⟩ := AsGoValue_sequence_success tb (by omega) (by
    intro i h1 h2
    rw [hMaxN] at h2
    exact hconv _ (hmem i h1 h2))
  refine ⟨xs, hxs, by rw [hlenxs, hMaxN], ?_⟩
  intro i h1 h2
  exact ⟨hmem i h1 h2, hget i h1 (by rw [hMaxN]; exact h2)⟩

theorem AsGoValue_sequence_of_index_keys_witness :
    ∃ xs, AsGoValue (.LTable (.mk [.LNumber 10, .LString "b", .LBool true] [] [])) =
        .ret (.slice xs) none ∧ xs.length = 3 ∧
      ∀ i, 1 ≤ i → i ≤ 3 →
        (LValue.LNumber ((i : Nat) : Rat),
          LTable.RawGetInt (.mk [.LNumber 10, .LString "b", .LBool true] [] []) i) ∈
          LTable.ForEach (.mk [.LNumber 10, .LString "b", .LBool true] [] []) ∧
        AsGoValue (LTable.RawGetInt (.mk [.LNumber 10, .LString "b", .LBool true] [] []) i) =
          .ret (xs.getD (i - 1) .nil) none :=
  AsGoValue_sequence_of_index_keys (.mk [.LNumber 10, .LString "b", .LBool true] [] []) 3
    (by decide) rfl (by
      intro i h1 h2
      interval_cases i <;> rfl) (by
      intro kv hkv
      simp only [LTable.ForEach, LTable.array, LTable.strdict, LTable.dict, arrayEntries,
        List.filter, LValue.isNil, List.map, List.append_nil, Bool.false_eq_true, if_false,
        List.mem_cons, List.mem_singleton, List.not_mem_nil, or_false] at hkv
      rcases hkv with h | h | h <;> rw [h] <;> exact ⟨_, rfl⟩)

end Glue

namespace Glue

/-! ## Mapping tables with scalar keys -/

theorem assocSet_of_fresh {κ ν : Type} (eq : κ → κ → Bool) (m : List (κ × ν)) (k : κ) (v : ν)
    (h : ∀ e ∈ m, eq e.1 k = false) : assocSet eq m k v = m ++ [(k, v)] := by
  induction m with
  | nil => rfl
  | cons e rest ih =>
    obtain ⟨k1, v1⟩ := e
    have h1 : eq k1 k = false := h (k1, v1) (List.mem_cons_self _ _)
    simp only [assocSet, h1, Bool.false_eq_true, if_false, List.cons_append]
    rw [ih (fun e he => h e (List.mem_cons_of_mem _ he))]

theorem AsGoValue_scalar (k : LValue) (h : k.isScalar = true) :
    ∃ gk, AsGoValue k = .ret gk none ∧ gk.hashable = true ∧ GoValue.keyEq gk gk = true := by
  cases k <;> simp [LValue.isScalar] at h
  · exact ⟨_, rfl, rfl, by simp [GoValue.keyEq]⟩
  · exact ⟨_, rfl, rfl, by simp [GoValue.keyEq]⟩
  · exact ⟨_, rfl, rfl, by simp [GoValue.keyEq]⟩

theorem AsGoValue_scalar_keyEq (a b : LValue) (ha : a.isScalar = true) (hb : b.isScalar = true)
    (ga gb : GoValue) (h1 : AsGoValue a = .ret ga none) (h2 : AsGoValue b = .ret gb none) :
    GoValue.keyEq ga gb = LValue.keyEq a b := by
  cases a <;> simp [LValue.isScalar] at ha <;> cases b <;> simp [LValue.isScalar] at hb <;>
    simp only [AsGoValue, Outcome.ret.injEq, and_true] at h1 h2 <;> subst h1 <;> subst h2 <;> rfl

theorem asGoStep_foldl_scalar (l : List (LValue × LValue)) (ret : List (GoValue × GoValue))
    (hs : ∀ kv ∈ l, kv.1.isScalar = true)
    (hc : ∀ kv ∈ l, ∃ g, AsGoValue kv.2 = .ret g none)
    (hd : (l.map Prod.fst).Pairwise (fun a b => LValue.keyEq a b = false))
    (hfresh : ∀ e ∈ ret, ∀ kv ∈ l, ∀ gk, AsGoValue kv.1 = .ret gk none →
      GoValue.keyEq e.1 gk = false) :
    ∃ ys, l.foldl asGoStep (some { ret := ret, err := none }) =
        some { ret := ret ++ ys, err := none } ∧ List.Forall₂ Converted l ys := by
  induction l generalizing ret with
  | nil => exact ⟨[], by simp, List.Forall₂.nil⟩
  | cons kv rest ih =>
    obtain ⟨gk, hgk, hhash, _⟩ := AsGoValue_scalar kv.1 (hs kv (List.mem_cons_self _ _))
    obtain ⟨gv, hgv⟩ := hc kv (List.mem_cons_self _ _)
    have hset : assocSet GoValue.keyEq ret gk gv = ret ++ [(gk, gv)] :=
      assocSet_of_fresh _ _ _ _ (fun e he => hfresh e he kv (List.mem_cons_self _ _) gk hgk)
    have hstep : asGoStep (some { ret := ret, err := none }) kv =
        some { ret := ret ++ [(gk, gv)], err := none } := by
      simp [asGoStep, asGoCallback, hgk, hgv, mapassign, hhash, hset]
    rw [List.map_cons, List.pairwise_cons] at hd
    obtain ⟨ys, hys, hall⟩ := ih (ret ++ [(gk, gv)])
      (fun kv1 h1 => hs kv1 (List.mem_cons_of_mem _ h1))
      (fun kv1 h1 => hc kv1 (List.mem_cons_of_mem _ h1)) hd.2 (by
        intro e he kv1 hkv1 gk1 hgk1
        rcases List.mem_append.mp he with h1 | h1
        · exact hfresh e h1 kv1 (List.mem_cons_of_mem _ hkv1) gk1 hgk1
        · rw [List.mem_singleton] at h1
          rw [h1, AsGoValue_scalar_keyEq kv.1 kv1.1 (hs kv (List.mem_cons_self _ _))
            (hs kv1 (List.mem_cons_of_mem _ hkv1)) gk gk1 hgk hgk1]
          exact hd.1 kv1.1 (List.mem_map_of_mem _ hkv1))
    refine ⟨(gk, gv) :: ys, ?_, List.Forall₂.cons ⟨hgk, hgv⟩ hall⟩
    rw [List.foldl_cons, hstep, hys]
    simp

theorem Converted_lookup (l : List (LValue × LValue)) (ys : List (GoValue × GoValue))
    (h : List.Forall₂ Converted l ys)
    (hs : ∀ kv ∈ l, kv.1.isScalar = true)
    (hd : (l.map Prod.fst).Pairwise (fun a b => LValue.keyEq a b = false)) :
    ∀ kv ∈ l, ∃ gk gv, AsGoValue kv.1 = .ret gk none ∧ AsGoValue kv.2 = .ret gv none ∧
      assocGet GoValue.keyEq ys gk = some gv := by
  induction h with
  | nil => intro kv hkv; cases hkv
  | @cons kv e rest ys1 hhead _ ih =>
    rw [List.map_cons, List.pairwise_cons] at hd
    obtain ⟨gk0, hgk0, _, hrefl⟩ := AsGoValue_scalar kv.1 (hs kv (List.mem_cons_self _ _))
    have he1 : e.1 = gk0 := by
      have := hhead.1
      rw [hgk0] at this
      injection this with h1 _
      exact h1.symm
    intro kv1 hkv1
    rcases List.mem_cons.mp hkv1 with h1 | h1
    · subst h1
      refine ⟨e.1, e.2, hhead.1, hhead.2, ?_⟩
      obtain ⟨k1, v1⟩ := e
      simp only at he1
      subst he1
      simp [assocGet, hrefl]
    · obtain ⟨gk, gv, hgk, hgv, hget⟩ := ih (fun kv2 h2 => hs kv2 (List.mem_cons_of_mem _ h2))
        hd.2 kv1 h1
      refine ⟨gk, gv, hgk, hgv, ?_⟩
      have hne : GoValue.keyEq e.1 gk = false := by
        rw [AsGoValue_scalar_keyEq kv.1 kv1.1 (hs kv (List.mem_cons_self _ _))
          (hs kv1 (List.mem_cons_of_mem _ h1)) e.1 gk hhead.1 hgk]
        exact hd.1 kv1.1 (List.mem_map_of_mem _ h1)
      obtain ⟨k1, v1⟩ := e
      simp only at hne
      simp [assocGet, hne, hget]

theorem Converted_source (l : List (LValue × LValue)) (ys : List (GoValue × GoValue))
    (h : List.Forall₂ Converted l ys) :
    ∀ e ∈ ys, ∃ kv ∈ l, AsGoValue kv.1 = .ret e.1 none ∧ AsGoValue kv.2 = .ret e.2 none := by
  induction h with
  | nil => intro e he; cases he
  | @cons kv e rest ys1 hhead _ ih =>
    intro e1 he1
    rcases List.mem_cons.mp he1 with h1 | h1
    · subst h1
      exact ⟨kv, List.mem_cons_self _ _, hhead.1, hhead.2⟩
    · obtain ⟨kv1, hkv1, h2⟩ := ih e1 h1
      exact ⟨kv1, List.mem_cons_of_mem _ hkv1, h2⟩

/-- Claim C6. For every Lua table that `AsGoValue` treats as a mapping
(`MaxN = 0`), whose keys are all scalars (bool, string or number; a table
holds each key once) and whose values all convert, `AsGoValue` succeeds with a
Mapping that has exactly one entry per table entry: for every pair `(k, v)` of
the table the Mapping holds `AsGoValue(v)` under the key `AsGoValue(k)`, and
every entry of the Mapping comes from a pair of the table. -/
theorem AsGoValue_mapping_scalar_keys (tb : LTable) (h0 : tb.MaxN = 0)
    (hs : ∀ kv ∈ tb.ForEach, kv.1.isScalar = true)
    (hd : (tb.ForEach.map Prod.fst).Pairwise (fun a b => LValue.keyEq a b = false))
    (hc : ∀ kv ∈ tb.ForEach, ∃ g, AsGoValue kv.2 = .ret g none) :
    ∃ mp, AsGoValue (.LTable tb) = .ret (.map mp) none ∧
      mp.length = tb.ForEach.length ∧
      (∀ kv ∈ tb.ForEach, ∃ gk gv, AsGoValue kv.1 = .ret gk none ∧
        AsGoValue kv.2 = .ret gv none ∧ assocGet GoValue.keyEq mp gk = some gv) ∧
      (∀ e ∈ mp, ∃ kv ∈ tb.ForEach,
        AsGoValue kv.1 = .ret e.1 none ∧ AsGoValue kv.2 = .ret e.2 none) := by
  obtain ⟨ys, hys, hall⟩ := asGoStep_foldl_scalar tb.ForEach [] hs hc hd
    (by intro e he; cases he)
  refine ⟨ys, ?_, hall.length_eq.symm, Converted_lookup _ _ hall hs hd,
    Converted_source _ _ hall⟩
  rw [AsGoValue_mapping tb h0, hys]
  simp

theorem AsGoValue_mapping_scalar_keys_witness :
    ∃ mp, AsGoValue (.LTable (.mk [] [("age", .LString "31")] [(.LBool true, .LNumber 2)])) =
        .ret (.map mp) none ∧
      mp.length = (LTable.ForEach
        (.mk [] [("age", .LString "31")] [(.LBool true, .LNumber 2)])).length ∧
      (∀ kv ∈ LTable.ForEach (.mk [] [("age", .LString "31")] [(.LBool true, .LNumber 2)]),
        ∃ gk gv, AsGoValue kv.1 = .ret gk none ∧
        AsGoValue kv.2 = .ret gv none ∧ assocGet GoValue.keyEq mp gk = some gv) ∧
      (∀ e ∈ mp, ∃ kv ∈ LTable.ForEach
          (.mk [] [("age", .LString "31")] [(.LBool true, .LNumber 2)]),
        AsGoValue kv.1 = .ret e.1 none ∧ AsGoValue kv.2 = .ret e.2 none) :=
  AsGoValue_mapping_scalar_keys (.mk [] [("age", .LString "31")] [(.LBool true, .LNumber 2)])
    rfl
    (by
      intro kv hkv
      simp only [LTable.ForEach, LTable.array, LTable.strdict, LTable.dict, arrayEntries,
        List.filter, LValue.isNil, List.map, List.nil_append, Bool.not_false, List.cons_append,
        List.mem_cons, List.mem_singleton, List.not_mem_nil, or_false] at hkv
      rcases hkv with h | h <;> rw [h] <;> rfl)
    (by
      simp [LTable.ForEach, LTable.array, LTable.strdict, LTable.dict, arrayEntries,
        LValue.isNil, LValue.keyEq])
    (by
      intro kv hkv
      simp only [LTable.ForEach, LTable.array, LTable.strdict, LTable.dict, arrayEntries,
        List.filter, LValue.isNil, List.map, List.nil_append, Bool.not_false, List.cons_append,
        List.mem_cons, List.mem_singleton, List.not_mem_nil, or_false] at hkv
      rcases hkv with h | h <;> rw [h] <;> exact ⟨_, rfl⟩)

end Glue

namespace Glue

/-! ## From the intermediate tree to Lua and back -/

theorem strPart_append (a b : List (LValue × LValue)) :
    strPart (a ++ b) = strPart a ++ strPart b := by
  simp [strPart, List.filterMap_append]

theorem dictPart_append (a b : List (LValue × LValue)) :
    dictPart (a ++ b) = dictPart a ++ dictPart b := by
  simp [dictPart, List.filter_append]

theorem mem_strPart (cl : List (LValue × LValue)) (e : String × LValue) (h : e ∈ strPart cl) :
    (LValue.LString e.1, e.2) ∈ cl := by
  simp only [strPart, List.mem_filterMap] at h
  obtain ⟨kv, hkv, he⟩ := h
  obtain ⟨k, v⟩ := kv
  cases k <;> simp at he
  rw [← he]
  exact hkv

theorem mem_dictPart (cl : List (LValue × LValue)) (e : LValue × LValue) (h : e ∈ dictPart cl) :
    e ∈ cl := (List.mem_filter.mp h).1

theorem LValue.isHashKey_isScalar (k : LValue) (h : k.isHashKey = true) : k.isScalar = true := by
  cases k <;> simp [LValue.isHashKey] at h <;> rfl

/-- `RawSet` of a fresh hash key and a value that is not nil adds the pair to
the hash parts. -/
theorem RawSet_tableOf (done : List (LValue × LValue)) (lk lv : LValue)
    (hkey : lk.isHashKey = true) (hnil : lv.isNil = false)
    (hfresh : ∀ x ∈ done, LValue.keyEq x.1 lk = false) :
    (tableOf done).RawSet lk lv = tableOf (done ++ [(lk, lv)]) := by
  have hd : assocSet LValue.keyEq (dictPart done) lk lv = dictPart done ++ [(lk, lv)] :=
    assocSet_of_fresh _ _ _ _ (fun e he => hfresh e (mem_dictPart _ _ he))
  cases lk with
  | LString s =>
    have hs : assocSet (· == ·) (strPart done) s lv = strPart done ++ [(s, lv)] :=
      assocSet_of_fresh _ _ _ _ (fun e he => by
        have := hfresh _ (mem_strPart _ _ he)
        simpa [LValue.keyEq] using this)
    have h1 : strPart [(LValue.LString s, lv)] = [(s, lv)] := rfl
    have h2 : dictPart [(LValue.LString s, lv)] = [] := rfl
    simp only [tableOf, LTable.RawSet, LTable.RawSetString, hnil, LTable.array, LTable.strdict,
      LTable.dict, hs, strPart_append, dictPart_append, h1, h2, List.append_nil,
      Bool.false_eq_true, if_false]
  | LBool b =>
    have h1 : strPart [(LValue.LBool b, lv)] = [] := rfl
    have h2 : dictPart [(LValue.LBool b, lv)] = [(LValue.LBool b, lv)] := rfl
    simp only [tableOf, LTable.RawSet, LTable.RawSetH, hnil, LTable.array, LTable.strdict,
      LTable.dict, hd, strPart_append, dictPart_append, h1, h2, List.append_nil,
      Bool.false_eq_true, if_false]
  | LNumber x =>
    have hx : isArrayKey x = false := by simpa [LValue.isHashKey] using hkey
    have h1 : strPart [(LValue.LNumber x, lv)] = [] := rfl
    have h2 : dictPart [(LValue.LNumber x, lv)] = [(LValue.LNumber x, lv)] := rfl
    simp only [tableOf, LTable.RawSet, LTable.RawSetH, hnil, LTable.array, LTable.strdict,
      LTable.dict, hd, hx, strPart_append, dictPart_append, h1, h2, List.append_nil,
      Bool.false_eq_true, if_false]
  | _ => simp [LValue.isHashKey] at hkey

/-- The loop of the `map` case of `FromGoValue` over entries that make the
round trip, with pairwise different keys that are not yet in the table. -/
theorem fromGoMap_loop (m : Mapper) (l : List (GoValue × GoValue))
    (cl : List (LValue × LValue)) (h : List.Forall₂ (RoundTripEntry m) l cl)
    (done : List (LValue × LValue))
    (hfresh : ∀ x ∈ done, ∀ y ∈ cl, LValue.keyEq x.1 y.1 = false)
    (hd : (cl.map Prod.fst).Pairwise (fun a b => LValue.keyEq a b = false)) :
    fromGoMap m l (tableOf done) = .ret (.LTable (tableOf (done ++ cl))) none := by
  induction h generalizing done with
  | nil => simp [fromGoMap]
  | @cons e kv rest crest hhead _ ih =>
    obtain ⟨k, v⟩ := e
    obtain ⟨hk, hkey, _, hv, hnil, _⟩ := hhead
    simp only at hk hv
    rw [List.map_cons, List.pairwise_cons] at hd
    simp only [fromGoMap, hk, hv]
    rw [RawSet_tableOf done kv.1 kv.2 hkey hnil
      (fun x hx => hfresh x hx kv (List.mem_cons_self _ _))]
    rw [ih (done ++ [(kv.1, kv.2)]) (by
      intro x hx y hy
      rcases List.mem_append.mp hx with h1 | h1
      · exact hfresh x h1 y (List.mem_cons_of_mem _ hy)
      · rw [List.mem_singleton] at h1
        rw [h1]
        exact hd.1 y.1 (List.mem_map_of_mem _ hy)) hd.2]
    simp

theorem Append_all_not_nil (arr : List LValue) (lv : LValue)
    (harr : ∀ x ∈ arr, x.isNil = false) (hnil : lv.isNil = false) :
    (LTable.mk arr [] []).Append lv = .mk (arr ++ [lv]) [] [] := by
  have hlast : (arr.length = 0 || !(arr.getD (arr.length - 1) .LNil).isNil) = true := by
    cases harr0 : arr with
    | nil => rfl
    | cons a rest =>
      have hlt : (a :: rest).length - 1 < (a :: rest).length := by simp
      have hget : (a :: rest).getD ((a :: rest).length - 1) .LNil =
          (a :: rest)[(a :: rest).length - 1] := by
        simp [List.getD_eq_getElem?_getD]
      rw [hget, harr _ (by rw [harr0]; exact List.getElem_mem hlt)]
      simp
  simp only [LTable.Append, hnil, Bool.false_eq_true, if_false, LTable.array, LTable.strdict,
    LTable.dict]
  rw [if_pos hlast]

/-- The loop of the `Slice, Array` case of `FromGoValue` over elements that
make the round trip. -/
theorem fromGoElems_loop (m : Mapper) (l : List GoValue) (lvs : List LValue)
    (h : List.Forall₂ (RoundTrip m) l lvs) (arr : List LValue)
    (harr : ∀ x ∈ arr, x.isNil = false) :
    fromGoElems m l (.mk arr [] []) = .ret (.LTable (.mk (arr ++ lvs) [] [])) none := by
  induction h generalizing arr with
  | nil => simp [fromGoElems]
  | @cons g lv rest lrest hhead _ ih =>
    obtain ⟨hg, hnil, _⟩ := hhead
    simp only [fromGoElems, hg]
    rw [Append_all_not_nil arr lv harr hnil, ih (arr ++ [lv]) (by
      intro x hx
      rcases List.mem_append.mp hx with h1 | h1
      · exact harr x h1
      · rw [List.mem_singleton] at h1
        rw [h1]
        exact hnil)]
    simp

end Glue

namespace Glue

theorem forall₂_mem_right {α β : Type} (R : α → β → Prop) (l : List α) (cl : List β)
    (h : List.Forall₂ R l cl) : ∀ y ∈ cl, ∃ x ∈ l, R x y := by
  induction h with
  | nil => intro y hy; cases hy
  | @cons a b l1 l2 hab _ ih =>
    intro y hy
    rcases List.mem_cons.mp hy with h1 | h1
    · exact ⟨a, List.mem_cons_self _ _, h1 ▸ hab⟩
    · obtain ⟨x, hx, hr⟩ := ih y h1
      exact ⟨x, List.mem_cons_of_mem _ hx, hr⟩

theorem LValue.keyEq_symm (a b : LValue) : LValue.keyEq a b = LValue.keyEq b a := by
  cases a <;> cases b <;> simp [LValue.keyEq, eq_comm]

theorem ForEach_tableOf (cl : List (LValue × LValue)) (hnil : ∀ kv ∈ cl, kv.2.isNil = false) :
    (tableOf cl).ForEach =
      cl.filter (fun kv => kv.1.isString) ++ cl.filter (fun kv => !kv.1.isString) := by
  have h1 : (strPart cl).filter (fun kv => !kv.2.isNil) = strPart cl := by
    rw [List.filter_eq_self]
    intro e he
    have := hnil _ (mem_strPart cl e he)
    simpa using this
  have h2 : (dictPart cl).filter (fun kv => !kv.2.isNil) = dictPart cl := by
    rw [List.filter_eq_self]
    intro e he
    have := hnil _ (mem_dictPart cl e he)
    simpa using this
  have h3 : (strPart cl).map (fun kv => ((.LString kv.1 : LValue), kv.2)) =
      cl.filter (fun kv => kv.1.isString) := by
    clear h1 h2 hnil
    induction cl with
    | nil => rfl
    | cons kv rest ih =>
      obtain ⟨k, v⟩ := kv
      cases k <;> simpa [strPart, List.filterMap_cons, List.filter_cons, LValue.isString]
        using ih
  simp only [LTable.ForEach, tableOf, LTable.array, LTable.strdict, LTable.dict, arrayEntries,
    List.nil_append, h1, h2, h3]
  rfl

/-- The table built from pairs with pairwise different hash keys and values
that convert is translated to a Go map that lists the converted pairs, in
some order. -/
theorem AsGoValue_tableOf (cl : List (LValue × LValue))
    (hkey : ∀ kv ∈ cl, kv.1.isHashKey = true)
    (hd : (cl.map Prod.fst).Pairwise (fun a b => LValue.keyEq a b = false))
    (hnil : ∀ kv ∈ cl, kv.2.isNil = false)
    (hc : ∀ kv ∈ cl, ∃ g, AsGoValue kv.2 = .ret g none) :
    ∃ ys zs, AsGoValue (.LTable (tableOf cl)) = .ret (.map ys) none ∧ ys.Perm zs ∧
      List.Forall₂ Converted cl zs := by
  have hperm : (tableOf cl).ForEach.Perm cl := by
    rw [ForEach_tableOf cl hnil]
    exact List.filter_append_perm _ cl
  have hmem : ∀ kv, kv ∈ (tableOf cl).ForEach ↔ kv ∈ cl := fun kv => hperm.mem_iff
  obtain ⟨ys, hys, hall⟩ := asGoStep_foldl_scalar (tableOf cl).ForEach []
    (fun kv h => LValue.isHashKey_isScalar _ (hkey kv ((hmem kv).mp h)))
    (fun kv h => hc kv ((hmem kv).mp h))
    ((List.Perm.pairwise_iff (fun {x y} (h : LValue.keyEq x y = false) => by
        rw [LValue.keyEq_symm]; exact h) (hperm.map Prod.fst)).mpr hd)
    (by intro e he; cases he)
  obtain ⟨zs, hzs, hp⟩ := List.perm_comp_forall₂ hperm.symm hall
  refine ⟨ys, zs, ?_, hp.symm, hzs⟩
  rw [AsGoValue_mapping (tableOf cl) rfl, hys]
  simp

theorem SameEntries_of_round_trip (m : Mapper) (l : List (GoValue × GoValue))
    (cl : List (LValue × LValue)) (h : List.Forall₂ (RoundTripEntry m) l cl)
    (zs : List (GoValue × GoValue)) (hz : List.Forall₂ Converted cl zs) : SameEntries zs l := by
  induction h generalizing zs with
  | nil => cases hz; exact SameEntries.nil
  | @cons e kv rest crest hhead _ ih =>
    cases hz with
    | @cons _ z _ zrest hconv hztail =>
      obtain ⟨k, v⟩ := e
      obtain ⟨zk, zv⟩ := z
      obtain ⟨_, _, hback, _, _, g1, hg1, hsame⟩ := hhead
      obtain ⟨hzk, hzv⟩ := hconv
      simp only at hback hg1 hsame hzk hzv
      rw [hback] at hzk
      rw [hg1] at hzv
      injection hzk with hzk _
      injection hzv with hzv _
      subst hzk
      subst hzv
      exact SameEntries.cons _ _ _ _ _ hsame (ih zrest hztail)

theorem getD_last_not_nil (arr : List LValue) (harr : ∀ x ∈ arr, x.isNil = false)
    (hne : arr ≠ []) : (arr.getD (arr.length - 1) .LNil).isNil = false := by
  have hlt : arr.length - 1 < arr.length := by
    have := List.length_pos.mpr hne
    omega
  have hget : arr.getD (arr.length - 1) .LNil = arr[arr.length - 1] := by
    simp [List.getD_eq_getElem?_getD, List.getElem?_eq_getElem hlt]
  rw [hget]
  exact harr _ (List.getElem_mem hlt)

theorem asGoItems_round_trip (m : Mapper) (l : List GoValue) (cells : List LValue)
    (h : List.Forall₂ (RoundTrip m) l cells) (ret : List GoValue) :
    ∃ xs, asGoItems cells cells.length ret = .ret (.slice (ret ++ xs)) none ∧
      SameElems xs l := by
  induction h generalizing ret with
  | nil => exact ⟨[], by simp [asGoItems], SameElems.nil⟩
  | @cons g lv rest crest hhead _ ih =>
    obtain ⟨_, _, g1, hg1, hsame⟩ := hhead
    obtain ⟨xs, hxs, hs⟩ := ih (ret ++ [g1])
    refine ⟨g1 :: xs, ?_, SameElems.cons _ _ _ _ hsame hs⟩
    simp [asGoItems, hg1, hxs]

theorem hashKey_round_trip (m : Mapper) (k : GoValue) (h : k.isHashKey = true) :
    ∃ lk, FromGoValue m k = .ret lk none ∧ lk.isHashKey = true ∧ AsGoValue lk = .ret k none := by
  cases k <;> simp [GoValue.isHashKey] at h
  · exact ⟨_, rfl, rfl, rfl⟩
  · exact ⟨_, rfl, rfl, rfl⟩
  · exact ⟨_, rfl, by simp [LValue.isHashKey, h], rfl⟩

theorem distinctKeys_round_trip (m : Mapper) (l : List (GoValue × GoValue))
    (cl : List (LValue × LValue)) (h : List.Forall₂ (RoundTripEntry m) l cl)
    (hd : distinctKeys l = true) :
    (cl.map Prod.fst).Pairwise (fun a b => LValue.keyEq a b = false) := by
  induction h with
  | nil => simp
  | @cons e kv rest crest hhead htail ih =>
    obtain ⟨k, v⟩ := e
    simp only [distinctKeys, Bool.and_eq_true, List.all_eq_true, Bool.not_eq_true',
      Prod.forall] at hd
    rw [List.map_cons, List.pairwise_cons]
    refine ⟨?_, ih hd.2⟩
    intro b hb
    obtain ⟨y, hy, rfl⟩ := List.mem_map.mp hb
    obtain ⟨e1, he1, _, hkey1, hback1, _⟩ := forall₂_mem_right _ _ _ htail y hy
    obtain ⟨_, hkey, hback, _⟩ := hhead
    rw [← AsGoValue_scalar_keyEq kv.1 y.1 (LValue.isHashKey_isScalar _ hkey)
      (LValue.isHashKey_isScalar _ hkey1) k e1.1 hback hback1]
    exact hd.1 e1.1 e1.2 he1

mutual
/-- Every generic node makes the round trip. -/
theorem roundTrip_node (m : Mapper) :
    ∀ g : GoValue, g.isGenericNode = true → ∃ lv, RoundTrip m g lv
  | .bool b, _ => ⟨.LBool b, rfl, rfl, _, rfl, .refl _⟩
  | .string s, _ => ⟨.LString s, rfl, rfl, _, rfl, .refl _⟩
  | .float64 x, _ => ⟨.LNumber x, rfl, rfl, _, rfl, .refl _⟩
  | .map entries, h => by
    simp only [GoValue.isGenericNode, Bool.and_eq_true] at h
    obtain ⟨cl, hcl⟩ := roundTrip_entries m entries h.1
    have hd := distinctKeys_round_trip m entries cl hcl h.2
    have hfrom := fromGoMap_loop m entries cl hcl [] (by intro x hx; cases hx) hd
    have hprops := forall₂_mem_right _ _ _ hcl
    obtain ⟨ys, zs, hys, hperm, hzs⟩ := AsGoValue_tableOf cl
      (fun kv hkv => by obtain ⟨_, _, _, hk, _⟩ := hprops kv hkv; exact hk) hd
      (fun kv hkv => by obtain ⟨_, _, _, _, _, _, hn, _⟩ := hprops kv hkv; exact hn)
      (fun kv hkv => by
        obtain ⟨_, _, _, _, _, _, _, g1, hg1, _⟩ := hprops kv hkv
        exact ⟨g1, hg1⟩)
    refine ⟨.LTable (tableOf cl), ?_, rfl, .map ys, hys, ?_⟩
    · simpa [FromGoValue, tableOf, strPart, dictPart] using hfrom
    · exact .map ys zs entries hperm (SameEntries_of_round_trip m entries cl hcl zs hzs)
  | .slice elems, h => by
    simp only [GoValue.isGenericNode, Bool.and_eq_true, Bool.not_eq_true',
      List.isEmpty_eq_false] at h
    obtain ⟨lvs, hlvs⟩ := roundTrip_elems m elems h.2
    have hfrom := fromGoElems_loop m elems lvs hlvs [] (by intro x hx; cases hx)
    have hnil : ∀ x ∈ lvs, x.isNil = false := fun x hx => by
      obtain ⟨_, _, _, hn, _⟩ := forall₂_mem_right _ _ _ hlvs x hx
      exact hn
    have hne : lvs ≠ [] := by
      intro h0
      rw [h0] at hlvs
      cases hlvs
      exact h.1 rfl
    have hMaxN : LTable.MaxN (.mk lvs [] []) = lvs.length := by
      have hlast := getD_last_not_nil lvs hnil hne
      obtain ⟨n, hn⟩ : ∃ n, lvs.length = n + 1 :=
        ⟨lvs.length - 1, by have := List.length_pos.mpr hne; omega⟩
      rw [hn] at hlast
      simp only [Nat.add_sub_cancel] at hlast
      simp only [LTable.MaxN, LTable.array, hn, maxNLoop, hlast, Bool.false_eq_true, if_false]
    obtain ⟨xs, hxs, hsame⟩ := asGoItems_round_trip m elems lvs hlvs []
    refine ⟨.LTable (.mk lvs [] []), ?_, rfl, .slice xs, ?_, .slice _ _ hsame⟩
    · simpa [FromGoValue, LTable.empty] using hfrom
    · rw [AsGoValue_sequence_eq _ (by rw [hMaxN]; exact fun h0 => hne (List.length_eq_zero.mp h0)),
        hMaxN]
      simpa using hxs
  | .nil, h => by simp [GoValue.isGenericNode] at h
  | .int _, h => by simp [GoValue.isGenericNode] at h
  | .struct _ _ _ _, h => by simp [GoValue.isGenericNode] at h
  | .pointer _, h => by simp [GoValue.isGenericNode] at h
  | .nilPointer, h => by simp [GoValue.isGenericNode] at h
  | .array _, h => by simp [GoValue.isGenericNode] at h
  | .number _ _, h => by simp [GoValue.isGenericNode] at h
  | .other _ _, h => by simp [GoValue.isGenericNode] at h
/-- The entries of a generic Mapping make the round trip, one by one. -/
theorem roundTrip_entries (m : Mapper) :
    ∀ l : List (GoValue × GoValue), genericEntries l = true →
      ∃ cl, List.Forall₂ (RoundTripEntry m) l cl
  | [], _ => ⟨[], .nil⟩
  | (k, v) :: rest, h => by
    simp only [genericEntries, Bool.and_eq_true] at h
    obtain ⟨lv, hlv⟩ := roundTrip_node m v h.1.2
    obtain ⟨cl, hcl⟩ := roundTrip_entries m rest h.2
    obtain ⟨lk, h1, h2, h3⟩ := hashKey_round_trip m k h.1.1
    exact ⟨(lk, lv) :: cl, .cons ⟨h1, h2, h3, hlv⟩ hcl⟩
/-- The elements of a generic Sequence make the round trip, one by one. -/
theorem roundTrip_elems (m : Mapper) :
    ∀ l : List GoValue, genericElems l = true → ∃ lvs, List.Forall₂ (RoundTrip m) l lvs
  | [], _ => ⟨[], .nil⟩
  | v :: rest, h => by
    simp only [genericElems, Bool.and_eq_true] at h
    obtain ⟨lv, hlv⟩ := roundTrip_node m v h.1
    obtain ⟨lvs, hlvs⟩ := roundTrip_elems m rest h.2
    exact ⟨lv :: lvs, .cons hlv hlvs⟩
end

/-- Claim C7, refuted as stated. The Mapping `{1.0: "a"}` has a scalar key and
a value that is not nil; `FromGoValue` stores its entry in the array part of
the table, and `AsGoValue` takes that table to the Sequence `["a"]`. -/
theorem FromGoValue_AsGoValue_array_key :
    ∃ v, FromGoValue (NewMapper 0) (.map [(.float64 1, .string "a")]) = .ret v none ∧
      AsGoValue v = .ret (.slice [.string "a"]) none :=
  ⟨_, rfl, rfl⟩

/-- Claim C7, amended. For every intermediate tree `g` built from bool, string
and float64 scalars, Mappings whose keys are pairwise different bools, strings
or numbers that are not array indices and whose values are such trees, and
Sequences that are not empty and whose elements are such trees,
`FromGoValue(g)` succeeds with a Lua value `v`, and `AsGoValue(v)` succeeds
with a value that equals `g` up to the order of the entries of its maps. -/
theorem FromGoValue_AsGoValue_round_trip (m : Mapper) (g : GoValue)
    (h : g.isGenericNode = true) :
    ∃ v g1, FromGoValue m g = .ret v none ∧ AsGoValue v = .ret g1 none ∧ GoValue.Same g1 g := by
  obtain ⟨lv, h1, _, g1, h2, h3⟩ := roundTrip_node m g h
  exact ⟨lv, g1, h1, h2, h3⟩

theorem FromGoValue_AsGoValue_round_trip_witness :
    ∃ v g1,
      FromGoValue (NewMapper 0)
        (.map [(.bool true, .slice [.float64 1, .string "x"]), (.string "name", .map []),
          (.float64 0, .bool false)]) = .ret v none ∧
      AsGoValue v = .ret g1 none ∧
      GoValue.Same g1
        (.map [(.bool true, .slice [.float64 1, .string "x"]), (.string "name", .map []),
          (.float64 0, .bool false)]) :=
  FromGoValue_AsGoValue_round_trip (NewMapper 0) _ (by rfl)

end Glue

namespace Glue

/-! ## Claims on FromGoValue, Decode and Encode -/

/-- Claim C14. For every Lua value whose kind is outside nil, bool, string,
number and table (function, userdata, thread, channel), `AsGoValue` returns
`ErrCannotConvert` with a nil result; and for every host value whose kind is
outside nil, bool, string, number, struct, pointer, slice, array and map,
`FromGoValue` returns `ErrCannotConvert` with a nil result. -/
theorem unsupported_kind_cannot_convert (m : Mapper) (lv : LValue) (g : GoValue)
    (hlv : lv.hasTranslation = false) (hg : kindHasTranslation g.kind = false) :
    AsGoValue lv = .ret .nil (some .ErrCannotConvert) ∧
    FromGoValue m g = .ret .nilInterface (some .ErrCannotConvert) := by
  constructor
  · cases lv <;> simp [LValue.hasTranslation] at hlv <;> rfl
  · cases g with
    | other k id => rfl
    | number k val => cases k <;> simp [GoValue.kind, NumKind.kind, kindHasTranslation] at hg
    | _ => simp [GoValue.kind, kindHasTranslation] at hg

theorem unsupported_kind_cannot_convert_witness :
    AsGoValue (.LFunction 7) = .ret .nil (some .ErrCannotConvert) ∧
    FromGoValue (NewMapper 0) (.other .Chan 3) = .ret .nilInterface (some .ErrCannotConvert) :=
  unsupported_kind_cannot_convert (NewMapper 0) (.LFunction 7) (.other .Chan 3) rfl rfl

/-- Claim C16. For every source and every destination table that is not nil,
if `Encode` returns an error then the destination table is as it was before
the call. -/
theorem Encode_error_leaves_destination (m : Mapper) (st : GoValue) (tb dst : LTable)
    (e : GoError) (h : Encode m st (some tb) = .ret dst (some e)) : dst = tb := by
  unfold Encode at h
  simp only at h
  split at h
  · injection h with h1 _
    exact h1.symm
  · split at h
    · cases h
    · injection h with h1 _
      exact h1.symm
    · split at h
      · injection h with _ h2
        cases h2
      · cases h

theorem Encode_error_leaves_destination_witness :
    Encode (NewMapper 0) (.slice [.bool true, .other .Func 0])
        (some (.mk [] [("a", .LNumber 1)] [])) =
      .ret (.mk [] [("a", .LNumber 1)] []) (some .ErrCannotConvert) ∧
    (LTable.mk [] [("a", .LNumber 1)] [] : LTable) = .mk [] [("a", .LNumber 1)] [] :=
  ⟨rfl, Encode_error_leaves_destination (NewMapper 0) (.slice [.bool true, .other .Func 0])
    (.mk [] [("a", .LNumber 1)] []) (.mk [] [("a", .LNumber 1)] []) .ErrCannotConvert rfl⟩

/-- Claim C17 (defect of the code). On the source `5` (an `int`) `FromGoValue`
succeeds with the number 5, which is not a table, and `Encode` into the empty
table panics in the type assertion `val.(*lua.LTable)`. -/
theorem Encode_scalar_source_panics :
    FromGoValue (NewMapper 0) (.int 5) = .ret (.LNumber 5) none ∧
    Encode (NewMapper 0) (.int 5) (some .empty) = .panic :=
  ⟨rfl, rfl⟩

end Glue

namespace Glue

theorem intBits_mod_two (o : Int) : intBits o % 2 = 0 ↔ o % 2 = 0 := by
  unfold intBits
  have h1 : (0 : Int) ≤ o % 2 ^ 64 := Int.emod_nonneg _ (by norm_num)
  have h2 : (o % 2 ^ 64) % 2 = o % 2 := Int.emod_emod_of_dvd o (by norm_num)
  omega

/-- The expression `m.Options&OptionsLenient == 0` holds exactly of the even
options values. -/
theorem errorUnused_eq (o : Options) :
    (NewMapper o).errorUnused = decide (o % 2 = 0) := by
  have h1 : intBits OptionsLenient = 1 := by decide
  have h2 : Nat.land (intBits o) 1 = intBits o % 2 := Nat.and_one_is_mod _
  simp only [Mapper.errorUnused, NewMapper, h1, h2]
  by_cases h : o % 2 = 0
  · simp [h, (intBits_mod_two o).mpr h]
  · have h3 : ¬ intBits o % 2 = 0 := fun h4 => h ((intBits_mod_two o).mp h4)
    simp [h, h3]

/-- Claim C15. For every options value `o` given to `NewMapper` and every
mapping-shaped table, one that `AsGoValue` translates to a Mapping `mp`,
`Decode` hands `mp` to the external decoder under the configuration in which
weak typing is enabled, the tag name is "glue", and unused fields are an error
exactly when `o` is even, that is when the bit `OptionsLenient = 1` of `o` is
clear. -/
theorem Decode_decoder_configuration {σ : Type} (ms : Mapstructure σ) (o : Options)
    (tbl : LTable) (st : σ) (mp : List (GoValue × GoValue))
    (hmp : AsGoValue (.LTable tbl) = .ret (.map mp) none) :
    Decode ms (NewMapper o) tbl st =
      match ms.NewDecoder
          { WeaklyTypedInput := true, TagName := "glue", ErrorUnused := decide (o % 2 = 0) }
          st with
      | some err => .ret st (some err)
      | none =>
        ms.Decode
          { WeaklyTypedInput := true, TagName := "glue", ErrorUnused := decide (o % 2 = 0) }
          st mp := by
  simp only [Decode, hmp, errorUnused_eq]

theorem Decode_decoder_configuration_witness :
    Decode recordConfig (NewMapper OptionsLenient) (.mk [] [("age", .LString "31")] []) none =
        .ret (some { WeaklyTypedInput := true, TagName := "glue", ErrorUnused := false }) none ∧
    Decode recordConfig (NewMapper 0) (.mk [] [("age", .LString "31")] []) none =
        .ret (some { WeaklyTypedInput := true, TagName := "glue", ErrorUnused := true }) none ∧
    Decode recordConfig (NewMapper 3) (.mk [] [("age", .LString "31")] []) none =
        .ret (some { WeaklyTypedInput := true, TagName := "glue", ErrorUnused := false }) none :=
  ⟨Decode_decoder_configuration recordConfig OptionsLenient
      (.mk [] [("age", .LString "31")] []) none [(.string "age", .string "31")] rfl,
    Decode_decoder_configuration recordConfig 0
      (.mk [] [("age", .LString "31")] []) none [(.string "age", .string "31")] rfl,
    Decode_decoder_configuration recordConfig 3
      (.mk [] [("age", .LString "31")] []) none [(.string "age", .string "31")] rfl⟩

/-! ## Slices and arrays -/

theorem fromGoElems_append (m : Mapper) (l : List GoValue) (lvs : List LValue)
    (h : List.Forall₂ (fun g lv => FromGoValue m g = .ret lv none ∧ lv.isNil = false) l lvs)
    (arr : List LValue) (harr : ∀ x ∈ arr, x.isNil = false) :
    fromGoElems m l (.mk arr [] []) = .ret (.LTable (.mk (arr ++ lvs) [] [])) none := by
  induction h generalizing arr with
  | nil => simp [fromGoElems]
  | @cons g lv rest lrest hhead _ ih =>
    obtain ⟨hg, hnil⟩ := hhead
    simp only [fromGoElems, hg]
    rw [Append_all_not_nil arr lv harr hnil, ih (arr ++ [lv]) (by
      intro x hx
      rcases List.mem_append.mp hx with h1 | h1
      · exact harr x h1
      · rw [List.mem_singleton] at h1
        rw [h1]
        exact hnil)]
    simp

theorem forall₂_of_forall_exists {α β : Type} (R : α → β → Prop) (l : List α)
    (h : ∀ x ∈ l, ∃ y, R x y) : ∃ ys, List.Forall₂ R l ys := by
  induction l with
  | nil => exact ⟨[], .nil⟩
  | cons a rest ih =>
    obtain ⟨y, hy⟩ := h a (List.mem_cons_self _ _)
    obtain ⟨ys, hys⟩ := ih (fun x hx => h x (List.mem_cons_of_mem _ hx))
    exact ⟨y :: ys, .cons hy hys⟩

theorem arrayEntries_keys_of_not_nil (arr : List LValue) (s : Nat)
    (h : ∀ x ∈ arr, x.isNil = false) :
    (arrayEntries arr s).map Prod.fst =
      (List.range arr.length).map (fun j => LValue.LNumber ((s + j + 1 : Nat) : Rat)) := by
  induction arr generalizing s with
  | nil => rfl
  | cons v rest ih =>
    have hv : v.isNil = false := h v (List.mem_cons_self _ _)
    simp only [arrayEntries, hv, Bool.false_eq_true, if_false, List.map_cons, List.length_cons]
    rw [List.range_succ_eq_map, List.map_cons, List.map_map,
      ih (s + 1) (fun x hx => h x (List.mem_cons_of_mem _ hx))]
    congr 1
    apply List.map_congr_left
    intro j _
    simp only [Function.comp]
    congr 2
    omega

theorem MaxN_of_not_nil (arr : List LValue) (h : ∀ x ∈ arr, x.isNil = false) :
    LTable.MaxN (.mk arr [] []) = arr.length := by
  cases harr : arr with
  | nil => rfl
  | cons a rest =>
    have hlast := getD_last_not_nil arr h (by rw [harr]; exact List.cons_ne_nil _ _)
    rw [harr] at hlast
    simp only [List.length_cons, Nat.add_sub_cancel] at hlast
    simp only [LTable.MaxN, LTable.array, List.length_cons, maxNLoop, hlast, Bool.false_eq_true,
      if_false]

theorem forall₂_getD {α β : Type} (R : α → β → Prop) (l : List α) (ys : List β)
    (h : List.Forall₂ R l ys) (a : α) (b : β) (k : Nat) (hk : k < l.length) :
    R (l.getD k a) (ys.getD k b) := by
  induction h generalizing k with
  | nil => simp at hk
  | @cons x y rest yrest hxy _ ih =>
    cases k with
    | zero => simpa using hxy
    | succ k => simpa using ih k (by simpa using hk)

/-- Claim C11, refuted as stated. Every element of the slice `[1, nil, 3]`
translates, but `Append` does not append the nil: the table has the keys 1 and
2 only, and its key 2 holds the translation of the third element. -/
theorem FromGoValue_slice_with_nil :
    FromGoValue (NewMapper 0) .nil = .ret .LNil none ∧
    FromGoValue (NewMapper 0) (.slice [.int 1, .nil, .int 3]) =
      .ret (.LTable (.mk [.LNumber 1, .LNumber 3] [] [])) none ∧
    LTable.MaxN (.mk [.LNumber 1, .LNumber 3] [] []) = 2 :=
  ⟨rfl, rfl, rfl⟩

/-- Claim C11, amended. For every host slice or array of length `N` whose
elements all translate to Lua values that are not nil, `FromGoValue` returns a
table whose keys are exactly the integers `1..N`, whose array length `MaxN` is
`N`, and whose value at the key `i` (for every `i` in `1..N`) is `FromGoValue`
of the element at position `i-1`. -/
theorem FromGoValue_slice_table (m : Mapper) (elems : List GoValue)
    (h : ∀ x ∈ elems, ∃ lv, FromGoValue m x = .ret lv none ∧ lv.isNil = false) :
    ∃ tb, FromGoValue m (.slice elems) = .ret (.LTable tb) none ∧
      FromGoValue m (.array elems) = .ret (.LTable tb) none ∧
      tb.ForEach.map Prod.fst = indexKeys elems.length ∧
      tb.MaxN = elems.length ∧
      ∀ i, 1 ≤ i → i ≤ elems.length →
        FromGoValue m (elems.getD (i - 1) .nil) = .ret (tb.RawGetInt i) none := by
  obtain ⟨lvs, hlvs⟩ := forall₂_of_forall_exists _ elems h
  have hnil : ∀ x ∈ lvs, x.isNil = false := fun x hx => by
    obtain ⟨_, _, _, hn⟩ := forall₂_mem_right _ _ _ hlvs x hx
    exact hn
  have hloop := fromGoElems_append m elems lvs hlvs [] (by intro x hx; cases hx)
  simp only [List.nil_append] at hloop
  have hlen : elems.length = lvs.length := hlvs.length_eq
  refine ⟨.mk lvs [] [], by simpa [FromGoValue, LTable.empty] using hloop,
    by simpa [FromGoValue, LTable.empty] using hloop, ?_, ?_, ?_⟩
  · have := arrayEntries_keys_of_not_nil lvs 0 hnil
    simp only [LTable.ForEach, LTable.array, LTable.strdict, LTable.dict, List.filter_nil,
      List.map_nil, List.append_nil, indexKeys, hlen, this]
    apply List.map_congr_left
    intro j _
    congr 2
    omega
  · rw [MaxN_of_not_nil lvs hnil, hlen]
  · intro i h1 h2
    obtain ⟨k, rfl⟩ : ∃ k, i = k + 1 := ⟨i - 1, by omega⟩
    rw [RawGetInt_succ]
    exact (forall₂_getD _ elems lvs hlvs .nil .LNil k h2).1

theorem FromGoValue_slice_table_witness :
    ∃ tb, FromGoValue (NewMapper 0) (.slice [.string "Administrator", .bool true]) =
        .ret (.LTable tb) none ∧
      FromGoValue (NewMapper 0) (.array [.string "Administrator", .bool true]) =
        .ret (.LTable tb) none ∧
      tb.ForEach.map Prod.fst = indexKeys 2 ∧
      tb.MaxN = 2 ∧
      ∀ i, 1 ≤ i → i ≤ 2 →
        FromGoValue (NewMapper 0)
          ((([.string "Administrator", .bool true] : List GoValue)).getD (i - 1) .nil) =
          .ret (tb.RawGetInt i) none :=
  FromGoValue_slice_table (NewMapper 0) [.string "Administrator", .bool true] (by
    intro x hx
    simp only [List.mem_cons, List.mem_singleton, List.not_mem_nil, or_false] at hx
    rcases hx with h | h <;> rw [h] <;> exact ⟨_, rfl, rfl⟩)

end Glue

namespace Glue

/-! ## Values without translation inside mappings and sequences -/

mutual
/-- On a plain host value `FromGoValue` returns: the nil value with
`ErrCannotConvert` when the value is or contains one without translation, and
a Lua value with a nil error otherwise. -/
theorem FromGoValue_plain (m : Mapper) :
    ∀ g : GoValue, g.isPlain = true →
      (g.hasUnsupported = true →
        FromGoValue m g = .ret .nilInterface (some .ErrCannotConvert)) ∧
      (g.hasUnsupported = false → ∃ lv, FromGoValue m g = .ret lv none)
  | .nil, _ => ⟨fun h => by simp [GoValue.hasUnsupported] at h, fun _ => ⟨_, rfl⟩⟩
  | .bool _, _ => ⟨fun h => by simp [GoValue.hasUnsupported] at h, fun _ => ⟨_, rfl⟩⟩
  | .string _, _ => ⟨fun h => by simp [GoValue.hasUnsupported] at h, fun _ => ⟨_, rfl⟩⟩
  | .int _, _ => ⟨fun h => by simp [GoValue.hasUnsupported] at h, fun _ => ⟨_, rfl⟩⟩
  | .float64 _, _ => ⟨fun h => by simp [GoValue.hasUnsupported] at h, fun _ => ⟨_, rfl⟩⟩
  | .number _ _, _ => ⟨fun _ => rfl, fun h => by simp [GoValue.hasUnsupported] at h⟩
  | .other _ _, _ => ⟨fun _ => rfl, fun h => by simp [GoValue.hasUnsupported] at h⟩
  | .map entries, hp => by
    simp only [GoValue.isPlain] at hp
    have := fromGoMap_plain m entries hp
    constructor
    · intro h
      simp only [GoValue.hasUnsupported] at h
      simpa [FromGoValue] using (this .empty).1 h
    · intro h
      simp only [GoValue.hasUnsupported] at h
      obtain ⟨t, ht⟩ := (this .empty).2 h
      exact ⟨_, by simpa [FromGoValue] using ht⟩
  | .slice elems, hp => by
    simp only [GoValue.isPlain] at hp
    have := fromGoElems_plain m elems hp
    constructor
    · intro h
      simp only [GoValue.hasUnsupported] at h
      simpa [FromGoValue] using (this .empty).1 h
    · intro h
      simp only [GoValue.hasUnsupported] at h
      obtain ⟨t, ht⟩ := (this .empty).2 h
      exact ⟨_, by simpa [FromGoValue] using ht⟩
  | .array elems, hp => by
    simp only [GoValue.isPlain] at hp
    have := fromGoElems_plain m elems hp
    constructor
    · intro h
      simp only [GoValue.hasUnsupported] at h
      simpa [FromGoValue] using (this .empty).1 h
    · intro h
      simp only [GoValue.hasUnsupported] at h
      obtain ⟨t, ht⟩ := (this .empty).2 h
      exact ⟨_, by simpa [FromGoValue] using ht⟩
  | .struct _ _ _ _, hp => by simp [GoValue.isPlain] at hp
  | .pointer _, hp => by simp [GoValue.isPlain] at hp
  | .nilPointer, hp => by simp [GoValue.isPlain] at hp
/-- The loop of the `map` case on plain entries, from any table. -/
theorem fromGoMap_plain (m : Mapper) :
    ∀ l : List (GoValue × GoValue), plainEntries l = true → ∀ table : LTable,
      (unsupportedInEntries l = true →
        fromGoMap m l table = .ret .nilInterface (some .ErrCannotConvert)) ∧
      (unsupportedInEntries l = false → ∃ t, fromGoMap m l table = .ret (.LTable t) none)
  | [], _ => fun table =>
    ⟨fun h => by simp [unsupportedInEntries] at h, fun _ => ⟨table, rfl⟩⟩
  | (k, v) :: rest, hp => fun table => by
    simp only [plainEntries, Bool.and_eq_true] at hp
    have hk := FromGoValue_plain m k hp.1.1
    have hv := FromGoValue_plain m v hp.1.2
    have hrest := fromGoMap_plain m rest hp.2
    cases hku : k.hasUnsupported
    · obtain ⟨lk, hlk⟩ := hk.2 hku
      cases hvu : v.hasUnsupported
      · obtain ⟨lv, hlv⟩ := hv.2 hvu
        simp only [unsupportedInEntries, hku, hvu, Bool.false_or, fromGoMap, hlk, hlv]
        exact hrest _
      · simp [unsupportedInEntries, hku, hvu, fromGoMap, hlk, hv.1 hvu]
    · simp [unsupportedInEntries, hku, fromGoMap, hk.1 hku]
/-- The loop of the `Slice, Array` case on plain elements, from any table. -/
theorem fromGoElems_plain (m : Mapper) :
    ∀ l : List GoValue, plainElems l = true → ∀ table : LTable,
      (unsupportedInElems l = true →
        fromGoElems m l table = .ret .nilInterface (some .ErrCannotConvert)) ∧
      (unsupportedInElems l = false → ∃ t, fromGoElems m l table = .ret (.LTable t) none)
  | [], _ => fun table =>
    ⟨fun h => by simp [unsupportedInElems] at h, fun _ => ⟨table, rfl⟩⟩
  | v :: rest, hp => fun table => by
    simp only [plainElems, Bool.and_eq_true] at hp
    have hv := FromGoValue_plain m v hp.1
    have hrest := fromGoElems_plain m rest hp.2
    cases hvu : v.hasUnsupported
    · obtain ⟨lv, hlv⟩ := hv.2 hvu
      simp only [unsupportedInElems, hvu, Bool.false_or, fromGoElems, hlv]
      exact hrest _
    · simp [unsupportedInElems, hvu, fromGoElems, hv.1 hvu]
end

/-- Claim C13. For every host value built from nil, scalars,
`map[interface{}]interface{}` mappings and slices or arrays that contains, at
any nesting depth (as a mapping key, a mapping value or a sequence element), a
value of an unsupported kind, `FromGoValue` returns the nil Lua value together
with an error (`ErrCannotConvert`): no table is returned. -/
theorem FromGoValue_unsupported_inside (m : Mapper) (g : GoValue) (hplain : g.isPlain = true)
    (hbad : g.hasUnsupported = true) :
    FromGoValue m g = .ret .nilInterface (some .ErrCannotConvert) :=
  (FromGoValue_plain m g hplain).1 hbad

theorem FromGoValue_unsupported_inside_witness :
    FromGoValue (NewMapper 0)
        (.map [(.string "name", .string "Jan"),
          (.string "roles", .slice [.map [(.other .Chan 0, .int 1)]])]) =
      .ret .nilInterface (some .ErrCannotConvert) :=
  FromGoValue_unsupported_inside (NewMapper 0) _ rfl rfl

end Glue

namespace Glue

/-! ## RawSet and the pairs of a table -/

theorem LValue.keyEq_eq (a b : LValue) (h : LValue.keyEq a b = true) : a = b := by
  cases a <;> cases b <;> simp [LValue.keyEq] at h <;> simp [h]

theorem arrayEntries_append (a b : List LValue) (s : Nat) :
    arrayEntries (a ++ b) s = arrayEntries a s ++ arrayEntries b (s + a.length) := by
  induction a generalizing s with
  | nil => simp [arrayEntries]
  | cons x rest ih =>
    have h1 : s + 1 + rest.length = s + (rest.length + 1) := by omega
    simp only [List.cons_append, arrayEntries, List.length_cons, List.append_eq]
    rw [ih (s + 1), h1]
    split <;> simp

theorem arrayEntries_replicate_nil (n s : Nat) :
    arrayEntries (List.replicate n .LNil) s = [] := by
  rw [arrayEntries_eq_nil]
  intro v hv
  rw [List.eq_of_mem_replicate hv]
  rfl

theorem arrayEntries_set (arr : List LValue) (i s : Nat) (v : LValue) (hi : i < arr.length)
    (hcell : (arr.getD i .LNil).isNil = true) (hv : v.isNil = false) :
    (arrayEntries (arr.set i v) s).Perm
      ((.LNumber ((s + i + 1 : Nat) : Rat), v) :: arrayEntries arr s) := by
  induction arr generalizing i s with
  | nil => simp at hi
  | cons x rest ih =>
    cases i with
    | zero =>
      simp only [List.getD_cons_zero] at hcell
      simp only [List.set_cons_zero, arrayEntries, hv, hcell, Bool.false_eq_true, if_false,
        if_true, Nat.add_zero]
      exact List.Perm.refl _
    | succ j =>
      simp only [List.getD_cons_succ] at hcell
      have hj : j < rest.length := by simpa using hi
      have h1 : s + 1 + j + 1 = s + (j + 1) + 1 := by omega
      have := ih j (s + 1) hj hcell
      rw [h1] at this
      simp only [List.set_cons_succ, arrayEntries]
      split
      · exact this
      · exact (List.Perm.cons _ this).trans (List.Perm.swap _ _ _)

theorem arrayEntries_singleton (v : LValue) (s : Nat) (hv : v.isNil = false) :
    arrayEntries [v] s = [(.LNumber ((s + 1 : Nat) : Rat), v)] := by
  simp only [arrayEntries, hv, Bool.false_eq_true, if_false]

/-- Writing a value that is not nil into an empty cell of the array part adds
one pair to the array pass of `ForEach`. -/
theorem arrayEntries_arraySet (arr : List LValue) (i : Nat) (v : LValue)
    (hcell : (arr.getD i .LNil).isNil = true) (hv : v.isNil = false) :
    (arrayEntries (arraySet arr i v) 0).Perm
      (arrayEntries arr 0 ++ [(.LNumber ((i + 1 : Nat) : Rat), v)]) := by
  unfold arraySet
  split
  · rename_i h
    rw [arrayEntries_append, arrayEntries_singleton _ _ hv, h, Nat.zero_add]
  · split
    · rename_i h1 h2
      rw [arrayEntries_append, arrayEntries_append, arrayEntries_replicate_nil,
        arrayEntries_singleton _ _ hv, List.length_append, List.length_replicate]
      have h3 : 0 + (arr.length + (i - arr.length)) + 1 = i + 1 := by omega
      rw [h3, List.append_nil]
    · rename_i h1 h2
      have hi : i < arr.length := by omega
      have := arrayEntries_set arr i 0 v hi hcell hv
      simp only [Nat.zero_add] at this
      exact this.trans (List.perm_append_singleton _ _).symm

theorem assocSet_filter_perm {κ : Type} (eq : κ → κ → Bool)
    (heq : ∀ a b, eq a b = true → a = b) (l : List (κ × LValue)) (k : κ) (v : LValue)
    (hv : v.isNil = false) (habs : ∀ e ∈ l, eq e.1 k = true → e.2.isNil = true) :
    ((assocSet eq l k v).filter (fun kv => !kv.2.isNil)).Perm
      (l.filter (fun kv => !kv.2.isNil) ++ [(k, v)]) := by
  induction l with
  | nil => simp [assocSet, hv]
  | cons e rest ih =>
    obtain ⟨k1, v1⟩ := e
    have ih1 := ih (fun e he => habs e (List.mem_cons_of_mem _ he))
    cases hk : eq k1 k
    · simp only [assocSet, hk, Bool.false_eq_true, if_false, List.filter_cons]
      split
      · exact List.Perm.cons _ ih1
      · exact ih1
    · have hnil : v1.isNil = true := habs (k1, v1) (List.mem_cons_self _ _) hk
      have hkk : k1 = k := heq _ _ hk
      subst hkk
      simp only [assocSet, hk, if_true, List.filter_cons, hv, hnil, Bool.not_false,
        Bool.not_true, Bool.false_eq_true, if_false]
      exact (List.perm_append_singleton _ _).symm

theorem isArrayKey_natCast_eq (x : Rat) (h : isArrayKey x = true) :
    x = ((x.num.toNat - 1 + 1 : Nat) : Rat) := by
  simp only [isArrayKey, Bool.and_eq_true, beq_iff_eq, decide_eq_true_eq] at h
  obtain ⟨⟨hden, hpos⟩, _⟩ := h
  have hnum : 0 < x.num := Rat.num_pos.mpr hpos
  obtain ⟨n, hn⟩ : ∃ n : Nat, x.num = (n : Int) :=
    ⟨x.num.toNat, (Int.toNat_of_nonneg (le_of_lt hnum)).symm⟩
  have htn : x.num.toNat - 1 + 1 = n := by
    rw [hn] at hnum ⊢
    simp only [Int.toNat_ofNat]
    omega
  rw [htn]
  have h3 : x = (x.num : Rat) := by
    have := Rat.num_div_den x
    rw [hden] at this
    simpa using this.symm
  rw [hn] at h3
  rw [h3]
  simp

theorem ForEach_value_not_nil (tb : LTable) (kv : LValue × LValue) (h : kv ∈ tb.ForEach) :
    kv.2.isNil = false := by
  simp only [LTable.ForEach, List.mem_append, List.mem_map, List.mem_filter] at h
  rcases h with (h | ⟨e, ⟨_, he⟩, rfl⟩) | ⟨_, h⟩
  · clear * - h
    generalize tb.array = arr at h
    generalize 0 = s at h
    induction arr generalizing s with
    | nil => simp [arrayEntries] at h
    | cons x rest ih =>
      simp only [arrayEntries] at h
      split at h
      · exact ih _ h
      · rename_i hx
        rcases List.mem_cons.mp h with h1 | h1
        · rw [h1]; simpa using hx
        · exact ih _ h1
  · simpa using he
  · simpa using h

end Glue

namespace Glue

theorem RawSetH_not_string (tb : LTable) (k v : LValue) (hk : k.isString = false)
    (hv : v.isNil = false) :
    tb.RawSetH k v = .mk tb.array tb.strdict (assocSet LValue.keyEq tb.dict k v) := by
  cases k <;> simp [LValue.isString] at hk <;> simp [LTable.RawSetH, hv]

theorem RawSetH_ForEach_perm (tb : LTable) (k v : LValue) (hk : k.isString = false)
    (hv : v.isNil = false) (habs : ∀ kv ∈ tb.ForEach, LValue.keyEq kv.1 k = false) :
    (tb.RawSetH k v).ForEach.Perm (tb.ForEach ++ [(k, v)]) := by
  rw [RawSetH_not_string tb k v hk hv]
  have hD := assocSet_filter_perm LValue.keyEq LValue.keyEq_eq tb.dict k v hv (by
    intro e he hek
    by_contra hne
    have hmem : e ∈ tb.ForEach := by
      simp only [LTable.ForEach]
      exact List.mem_append_right _ (List.mem_filter.mpr ⟨he, by simpa using hne⟩)
    rw [habs e hmem] at hek
    cases hek)
  simp only [LTable.ForEach, LTable.array, LTable.strdict, LTable.dict, List.append_assoc]
  exact List.Perm.append_left _ (List.Perm.append_left _ hD)

theorem RawSetString_ForEach_perm (tb : LTable) (s : String) (v : LValue)
    (hv : v.isNil = false)
    (habs : ∀ kv ∈ tb.ForEach, LValue.keyEq kv.1 (.LString s) = false) :
    (tb.RawSetString s v).ForEach.Perm (tb.ForEach ++ [(.LString s, v)]) := by
  have hS := assocSet_filter_perm (fun a b : String => a == b)
    (fun a b h => by simpa using h) tb.strdict s v hv (by
    intro e he hek
    by_contra hne
    have hmem : (LValue.LString e.1, e.2) ∈ tb.ForEach := by
      simp only [LTable.ForEach]
      apply List.mem_append_left
      apply List.mem_append_right
      exact List.mem_map.mpr ⟨e, List.mem_filter.mpr ⟨he, by simpa using hne⟩, rfl⟩
    have := habs _ hmem
    simp only [LValue.keyEq] at this
    have hek1 : (e.1 == s) = true := hek
    rw [this] at hek1
    cases hek1)
  have hS2 := hS.map (fun kv : String × LValue => ((.LString kv.1 : LValue), kv.2))
  simp only [List.map_append, List.map_cons, List.map_nil] at hS2
  simp only [LTable.RawSetString, hv, Bool.false_eq_true, if_false, LTable.ForEach,
    LTable.array, LTable.strdict, LTable.dict, List.append_assoc]
  apply List.Perm.append_left
  refine (List.Perm.append_right _ hS2).trans ?_
  simp only [List.append_assoc]
  exact List.Perm.append_left _ List.perm_append_comm

/-- `RawSet` of a value that is not nil under a key that the table does not
hold adds the pair to the pairs of the table and leaves the others as they
are. -/
theorem RawSet_ForEach_perm (tb : LTable) (k v : LValue) (hv : v.isNil = false)
    (habs : ∀ kv ∈ tb.ForEach, LValue.keyEq kv.1 k = false) :
    (tb.RawSet k v).ForEach.Perm (tb.ForEach ++ [(k, v)]) := by
  cases k with
  | LString s => exact RawSetString_ForEach_perm tb s v hv habs
  | LNumber x =>
    simp only [LTable.RawSet]
    split
    · rename_i hx
      have hcell : (tb.array.getD (x.num.toNat - 1) .LNil).isNil = true := by
        by_contra hne
        have hne1 : (tb.array.getD (x.num.toNat - 1) .LNil).isNil = false := by simpa using hne
        have hmem := arrayEntries_mem tb.array 0 (x.num.toNat - 1) hne1
        have hin : (LValue.LNumber ((0 + (x.num.toNat - 1) + 1 : Nat) : Rat),
            tb.array.getD (x.num.toNat - 1) .LNil) ∈ tb.ForEach := by
          simp only [LTable.ForEach]
          exact List.mem_append_left _ (List.mem_append_left _ hmem)
        have := habs _ hin
        rw [Nat.zero_add, ← isArrayKey_natCast_eq x hx] at this
        simp [LValue.keyEq] at this
      have hA := arrayEntries_arraySet tb.array (x.num.toNat - 1) v hcell hv
      rw [← isArrayKey_natCast_eq x hx] at hA
      simp only [LTable.ForEach, LTable.array, LTable.strdict, LTable.dict, List.append_assoc]
      refine (List.Perm.append_right _ hA).trans ?_
      simp only [List.append_assoc]
      apply List.Perm.append_left
      have := @List.perm_append_comm _ [(LValue.LNumber x, v)]
        ((tb.strdict.filter (fun kv => !kv.2.isNil)).map
          (fun kv => ((.LString kv.1 : LValue), kv.2)) ++ tb.dict.filter (fun kv => !kv.2.isNil))
      simpa [List.append_assoc] using this
    · exact RawSetH_ForEach_perm tb (.LNumber x) v rfl hv habs
  | nilInterface => exact RawSetH_ForEach_perm tb .nilInterface v rfl hv habs
  | LNil => exact RawSetH_ForEach_perm tb .LNil v rfl hv habs
  | LBool b => exact RawSetH_ForEach_perm tb (.LBool b) v rfl hv habs
  | LTable t => exact RawSetH_ForEach_perm tb (.LTable t) v rfl hv habs
  | LFunction id => exact RawSetH_ForEach_perm tb (.LFunction id) v rfl hv habs
  | LUserData id => exact RawSetH_ForEach_perm tb (.LUserData id) v rfl hv habs
  | LState id => exact RawSetH_ForEach_perm tb (.LState id) v rfl hv habs
  | LChannel id => exact RawSetH_ForEach_perm tb (.LChannel id) v rfl hv habs

/-- Copying pairs with pairwise different keys and values that are not nil
into a table that holds none of the keys adds exactly these pairs. -/
theorem copy_ForEach_perm (ps : List (LValue × LValue)) (dst : LTable)
    (hv : ∀ kv ∈ ps, kv.2.isNil = false)
    (hd : (ps.map Prod.fst).Pairwise (fun a b => LValue.keyEq a b = false))
    (habs : ∀ kv ∈ dst.ForEach, ∀ p ∈ ps, LValue.keyEq kv.1 p.1 = false) :
    (ps.foldl (fun dst kv => dst.RawSet kv.1 kv.2) dst).ForEach.Perm (dst.ForEach ++ ps) := by
  induction ps generalizing dst with
  | nil => simp
  | cons p rest ih =>
    rw [List.map_cons, List.pairwise_cons] at hd
    have hstep := RawSet_ForEach_perm dst p.1 p.2 (hv p (List.mem_cons_self _ _))
      (fun kv hkv => habs kv hkv p (List.mem_cons_self _ _))
    have := ih (dst.RawSet p.1 p.2) (fun kv hkv => hv kv (List.mem_cons_of_mem _ hkv)) hd.2 (by
      intro kv hkv q hq
      rcases List.mem_append.mp (hstep.mem_iff.mp hkv) with h1 | h1
      · exact habs kv h1 q (List.mem_cons_of_mem _ hq)
      · rw [List.mem_singleton] at h1
        rw [h1]
        exact hd.1 q.1 (List.mem_map_of_mem _ hq))
    rw [List.foldl_cons]
    refine this.trans ?_
    refine (List.Perm.append_right _ hstep).trans ?_
    simp
end Glue

namespace Glue

/-! ## The tables FromGoValue builds hold each key once -/

theorem assocSet_key_mem {κ ν : Type} (eq : κ → κ → Bool) (l : List (κ × ν)) (k : κ) (v : ν)
    (a : κ) (h : a ∈ (assocSet eq l k v).map Prod.fst) : a ∈ l.map Prod.fst ∨ a = k := by
  induction l with
  | nil => simpa [assocSet] using h
  | cons e rest ih =>
    obtain ⟨k1, v1⟩ := e
    simp only [assocSet] at h
    split at h
    · exact Or.inl (by simpa using h)
    · simp only [List.map_cons, List.mem_cons] at h ⊢
      rcases h with h1 | h1
      · exact Or.inl (Or.inl h1)
      · rcases ih h1 with h2 | h2
        · exact Or.inl (Or.inr h2)
        · exact Or.inr h2

theorem assocSet_keys_pairwise {κ ν : Type} (eq : κ → κ → Bool) (l : List (κ × ν)) (k : κ)
    (v : ν) (h : (l.map Prod.fst).Pairwise (fun a b => eq a b = false)) :
    ((assocSet eq l k v).map Prod.fst).Pairwise (fun a b => eq a b = false) := by
  induction l with
  | nil => simp [assocSet]
  | cons e rest ih =>
    obtain ⟨k1, v1⟩ := e
    rw [List.map_cons, List.pairwise_cons] at h
    simp only [assocSet]
    split
    · rw [List.map_cons, List.pairwise_cons]
      exact h
    · rename_i hk
      rw [List.map_cons, List.pairwise_cons]
      refine ⟨?_, ih h.2⟩
      intro a ha
      rcases assocSet_key_mem eq rest k v a ha with h1 | h1
      · exact h.1 a h1
      · rw [h1]
        simpa using hk

theorem assocDelete_keys_pairwise {κ ν : Type} (eq : κ → κ → Bool) (l : List (κ × ν)) (k : κ)
    (R : κ → κ → Prop) (h : (l.map Prod.fst).Pairwise R) :
    ((assocDelete eq l k).map Prod.fst).Pairwise R :=
  h.sublist ((List.filter_sublist l).map Prod.fst)

theorem arraySet_length (arr : List LValue) (i : Nat) (v : LValue) (n : Nat)
    (h1 : arr.length < n) (h2 : i + 1 < n) : (arraySet arr i v).length < n := by
  unfold arraySet
  split
  · simp; omega
  · split
    · simp; omega
    · simpa using h1

theorem RawSetString_WF (tb : LTable) (s : String) (v : LValue) (h : tb.WF) :
    (tb.RawSetString s v).WF := by
  obtain ⟨h1, h2, h3, h4⟩ := h
  unfold LTable.RawSetString
  split
  · exact ⟨h1, assocDelete_keys_pairwise _ _ _ _ h2, h3, h4⟩
  · exact ⟨h1, assocSet_keys_pairwise _ _ _ _ h2, h3, h4⟩

theorem RawSetH_WF (tb : LTable) (k v : LValue) (h : tb.WF)
    (hk : k.isString = false ∧ ∀ x, k = .LNumber x → isArrayKey x = false) :
    (tb.RawSetH k v).WF := by
  obtain ⟨h1, h2, h3, h4⟩ := h
  have hgoal : (LTable.mk tb.array tb.strdict
      (if v.isNil then assocDelete LValue.keyEq tb.dict k
        else assocSet LValue.keyEq tb.dict k v)).WF := by
    split
    · exact ⟨h1, h2, assocDelete_keys_pairwise _ _ _ _ h3,
        fun kv hkv => h4 kv (List.mem_filter.mp hkv).1⟩
    · refine ⟨h1, h2, assocSet_keys_pairwise _ _ _ _ h3, ?_⟩
      intro kv hkv
      rcases assocSet_key_mem LValue.keyEq tb.dict k v kv.1 (List.mem_map_of_mem _ hkv)
        with h5 | h5
      · obtain ⟨e, he, hek⟩ := List.mem_map.mp h5
        rw [← hek]
        exact h4 e he
      · rw [h5]
        exact hk
  have heq : tb.RawSetH k v = LTable.mk tb.array tb.strdict
      (if v.isNil then assocDelete LValue.keyEq tb.dict k
        else assocSet LValue.keyEq tb.dict k v) := by
    have hs := hk.1
    cases k <;> simp [LValue.isString] at hs <;> by_cases hv : v.isNil = true <;>
      simp [LTable.RawSetH, hv]
  rw [heq]
  exact hgoal

theorem RawSet_WF (tb : LTable) (k v : LValue) (h : tb.WF) : (tb.RawSet k v).WF := by
  cases k with
  | LString s => exact RawSetString_WF tb s v h
  | LNumber x =>
    simp only [LTable.RawSet]
    split
    · rename_i hx
      obtain ⟨h1, h2, h3, h4⟩ := h
      refine ⟨arraySet_length _ _ _ _ h1 ?_, h2, h3, h4⟩
      have heq := isArrayKey_natCast_eq x hx
      simp only [isArrayKey, Bool.and_eq_true, decide_eq_true_eq] at hx
      have hlt := hx.2
      rw [heq] at hlt
      exact_mod_cast hlt
    · rename_i hx
      exact RawSetH_WF tb (.LNumber x) v h ⟨rfl, fun y hy => by
        injection hy with hy
        rw [← hy]
        simpa using hx⟩
  | nilInterface => exact RawSetH_WF tb .nilInterface v h ⟨rfl, fun _ hx => by cases hx⟩
  | LNil => exact RawSetH_WF tb .LNil v h ⟨rfl, fun _ hx => by cases hx⟩
  | LBool b => exact RawSetH_WF tb (.LBool b) v h ⟨rfl, fun _ hx => by cases hx⟩
  | LTable t => exact RawSetH_WF tb (.LTable t) v h ⟨rfl, fun _ hx => by cases hx⟩
  | LFunction id => exact RawSetH_WF tb (.LFunction id) v h ⟨rfl, fun _ hx => by cases hx⟩
  | LUserData id => exact RawSetH_WF tb (.LUserData id) v h ⟨rfl, fun _ hx => by cases hx⟩
  | LState id => exact RawSetH_WF tb (.LState id) v h ⟨rfl, fun _ hx => by cases hx⟩
  | LChannel id => exact RawSetH_WF tb (.LChannel id) v h ⟨rfl, fun _ hx => by cases hx⟩

theorem WF_empty : LTable.empty.WF :=
  ⟨by decide, List.Pairwise.nil, List.Pairwise.nil, fun _ h => by cases h⟩

theorem fromGoMap_WF (m : Mapper) (l : List (GoValue × GoValue)) (tb t : LTable)
    (hwf : tb.WF) (h : fromGoMap m l tb = .ret (.LTable t) none) : t.WF := by
  induction l generalizing tb with
  | nil =>
    simp only [fromGoMap, Outcome.ret.injEq, LValue.LTable.injEq, and_true] at h
    rw [← h]
    exact hwf
  | cons e rest ih =>
    obtain ⟨k, v⟩ := e
    simp only [fromGoMap] at h
    split at h
    · cases h
    · cases h
    · split at h
      · cases h
      · cases h
      · exact ih _ (RawSet_WF _ _ _ hwf) h

end Glue

namespace Glue

theorem arrayEntries_key_range (array : List LValue) (s : Nat) (kv : LValue × LValue)
    (h : kv ∈ arrayEntries array s) :
    ∃ k, s < k ∧ k ≤ s + array.length ∧ kv.1 = .LNumber ((k : Nat) : Rat) := by
  induction array generalizing s with
  | nil => simp [arrayEntries] at h
  | cons v rest ih =>
    simp only [arrayEntries] at h
    split at h
    · obtain ⟨k, hk1, hk2, he⟩ := ih (s + 1) h
      exact ⟨k, by omega, by simp only [List.length_cons]; omega, he⟩
    · rcases List.mem_cons.mp h with h1 | h1
      · exact ⟨s + 1, by omega, by simp only [List.length_cons]; omega, by rw [h1]⟩
      · obtain ⟨k, hk1, hk2, he⟩ := ih (s + 1) h1
        exact ⟨k, by omega, by simp only [List.length_cons]; omega, he⟩

theorem keyEq_natCast_ne (a b : Nat) (h : a ≠ b) :
    LValue.keyEq (.LNumber ((a : Nat) : Rat)) (.LNumber ((b : Nat) : Rat)) = false := by
  simp only [LValue.keyEq, beq_eq_false_iff_ne, ne_eq]
  intro h1
  exact h (by exact_mod_cast h1)

theorem arrayEntries_keys_pairwise (array : List LValue) (s : Nat) :
    ((arrayEntries array s).map Prod.fst).Pairwise (fun a b => LValue.keyEq a b = false) := by
  induction array generalizing s with
  | nil => simp [arrayEntries]
  | cons v rest ih =>
    simp only [arrayEntries]
    split
    · exact ih (s + 1)
    · rw [List.map_cons, List.pairwise_cons]
      refine ⟨?_, ih (s + 1)⟩
      intro a ha
      obtain ⟨kv, hkv, rfl⟩ := List.mem_map.mp ha
      obtain ⟨k, hk, hkey⟩ := arrayEntries_key_ge rest (s + 1) kv hkv
      rw [hkey]
      exact keyEq_natCast_ne _ _ (by omega)

/-- A table that satisfies the invariant holds each key once. -/
theorem WF_keys_pairwise (tb : LTable) (h : tb.WF) :
    (tb.ForEach.map Prod.fst).Pairwise (fun a b => LValue.keyEq a b = false) := by
  obtain ⟨h1, h2, h3, h4⟩ := h
  simp only [LTable.ForEach, List.map_append, List.pairwise_append]
  refine ⟨⟨arrayEntries_keys_pairwise _ _, ?_, ?_⟩, ?_, ?_⟩
  · -- the keys of the strdict pass
    have hsub : ((tb.strdict.filter (fun kv => !kv.2.isNil)).map Prod.fst).Sublist
        (tb.strdict.map Prod.fst) := (List.filter_sublist _).map _
    have hp := h2.sublist hsub
    rw [List.map_map]
    have : (Prod.fst ∘ fun kv : String × LValue => ((.LString kv.1 : LValue), kv.2)) =
        (fun s => LValue.LString s) ∘ Prod.fst := rfl
    rw [this, ← List.map_map, List.pairwise_map]
    exact hp.imp (fun {a b} hab => by simpa [LValue.keyEq] using hab)
  · -- array keys against strdict keys
    intro a ha b hb
    obtain ⟨kv, hkv, rfl⟩ := List.mem_map.mp ha
    obtain ⟨k, _, hkey⟩ := arrayEntries_key_ge _ _ kv hkv
    simp only [List.map_map, List.mem_map, Function.comp] at hb
    obtain ⟨e, _, rfl⟩ := hb
    rw [hkey]
    rfl
  · -- the keys of the dict pass
    exact h3.sublist ((List.filter_sublist _).map _)
  · -- array and strdict keys against dict keys
    intro a ha b hb
    obtain ⟨d, hd, rfl⟩ := List.mem_map.mp hb
    have hd1 := h4 d (List.mem_filter.mp hd).1
    cases hab : LValue.keyEq a d.1
    · rfl
    · exfalso
      have heq := LValue.keyEq_eq _ _ hab
      rcases List.mem_append.mp ha with ha1 | ha1
      · obtain ⟨kv, hkv, rfl⟩ := List.mem_map.mp ha1
        obtain ⟨k, hk1, hk2, hkey⟩ := arrayEntries_key_range _ _ kv hkv
        rw [hkey] at heq
        have := hd1.2 _ heq.symm
        rw [isArrayKey_natCast k (by omega) (by omega)] at this
        cases this
      · simp only [List.map_map, List.mem_map, Function.comp] at ha1
        obtain ⟨e, _, rfl⟩ := ha1
        rw [← heq] at hd1
        simp [LValue.isString] at hd1

theorem Append_hash_parts (tb : LTable) (v : LValue) :
    (tb.Append v).strdict = tb.strdict ∧ (tb.Append v).dict = tb.dict := by
  unfold LTable.Append
  split
  · exact ⟨rfl, rfl⟩
  · split <;> exact ⟨rfl, rfl⟩

theorem fromGoElems_hash_parts (m : Mapper) (l : List GoValue) (tb t : LTable)
    (h : fromGoElems m l tb = .ret (.LTable t) none) :
    t.strdict = tb.strdict ∧ t.dict = tb.dict := by
  induction l generalizing tb with
  | nil =>
    simp only [fromGoElems, Outcome.ret.injEq, LValue.LTable.injEq, and_true] at h
    rw [← h]
    exact ⟨rfl, rfl⟩
  | cons e rest ih =>
    simp only [fromGoElems] at h
    split at h
    · cases h
    · cases h
    · have := ih _ h
      rw [(Append_hash_parts tb _).1, (Append_hash_parts tb _).2] at this
      exact this

theorem hash_free_keys_pairwise (t : LTable) (h1 : t.strdict = []) (h2 : t.dict = []) :
    (t.ForEach.map Prod.fst).Pairwise (fun a b => LValue.keyEq a b = false) := by
  simp only [LTable.ForEach, h1, h2, List.filter_nil, List.map_nil, List.append_nil]
  exact arrayEntries_keys_pairwise _ _

/-- A table that `FromGoValue` returns holds each key once. -/
theorem FromGoValue_table_keys_pairwise (m : Mapper) :
    ∀ (g : GoValue) (t : LTable), FromGoValue m g = .ret (.LTable t) none →
      (t.ForEach.map Prod.fst).Pairwise (fun a b => LValue.keyEq a b = false)
  | .nil, _, h => by simp [FromGoValue] at h
  | .bool _, _, h => by simp [FromGoValue] at h
  | .string _, _, h => by simp [FromGoValue] at h
  | .int _, _, h => by simp [FromGoValue] at h
  | .float64 _, _, h => by simp [FromGoValue] at h
  | .number _ _, _, h => by simp [FromGoValue] at h
  | .other _ _, _, h => by simp [FromGoValue] at h
  | .nilPointer, _, h => by simp [FromGoValue] at h
  | .pointer elem, t, h =>
    FromGoValue_table_keys_pairwise m elem t (by simpa [FromGoValue] using h)
  | .map entries, t, h =>
    WF_keys_pairwise t (fromGoMap_WF m entries .empty t WF_empty (by simpa [FromGoValue] using h))
  | .struct strictErr strictMap lenientErr lenientMap, t, h => by
    simp only [FromGoValue] at h
    split at h
    · split at h
      · cases h
      · exact WF_keys_pairwise t (fromGoMap_WF m _ .empty t WF_empty h)
    · split at h
      · cases h
      · exact WF_keys_pairwise t (fromGoMap_WF m _ .empty t WF_empty h)
  | .slice elems, t, h => by
    have := fromGoElems_hash_parts m elems .empty t (by simpa [FromGoValue] using h)
    exact hash_free_keys_pairwise t this.1 this.2
  | .array elems, t, h => by
    have := fromGoElems_hash_parts m elems .empty t (by simpa [FromGoValue] using h)
    exact hash_free_keys_pairwise t this.1 this.2

/-- Claim C12. For every source and every empty destination table for which
`Encode` returns nil, `FromGoValue(source)` produced a table, and the
destination afterwards holds exactly the top-level key/value pairs of that
table: every pair of that table is present with the same value, and the
destination has no other pairs. -/
theorem Encode_copies_pairs (m : Mapper) (st : GoValue) (tb dst : LTable)
    (hempty : tb.ForEach = []) (h : Encode m st (some tb) = .ret dst none) :
    ∃ t, FromGoValue m st = .ret (.LTable t) none ∧ dst.ForEach.Perm t.ForEach := by
  unfold Encode at h
  simp only at h
  split at h
  · cases h
  · split at h
    · cases h
    · cases h
    · rename_i val hval
      split at h
      · rename_i t
        refine ⟨t, hval, ?_⟩
        simp only [Outcome.ret.injEq, and_true] at h
        rw [← h]
        have := copy_ForEach_perm t.ForEach tb (fun kv hkv => ForEach_value_not_nil t kv hkv)
          (FromGoValue_table_keys_pairwise m st t hval)
          (by rw [hempty]; intro kv hkv; cases hkv)
        rw [hempty, List.nil_append] at this
        exact this
      · cases h

theorem Encode_copies_pairs_witness :
    ∃ t, FromGoValue (NewMapper 0)
        (.map [(.string "first_name", .string "Jan"), (.string "age", .int 31),
          (.string "roles", .slice [.string "Administrator", .string "Operator"])]) =
        .ret (.LTable t) none ∧
      (LTable.ForEach (.mk [] [("first_name", .LString "Jan"), ("age", .LNumber 31),
        ("roles", .LTable (.mk [.LString "Administrator", .LString "Operator"] [] []))]
        [])).Perm t.ForEach :=
  Encode_copies_pairs (NewMapper 0) _ .empty _ rfl rfl

end Glue
